import Mathlib

/-!
Verification development for the design-governance / artifact-healing repository.

Shallow embedding of:
  * src/governance-engine.js   (class GovernanceEngine: validate, _recursiveCheck,
    _generateFragment, _addViolation)
  * src/design-validator.js    (code output handler: parseGeminiResponse and its
    helper stages: extractCodeBlock, sanitizeFrameworkCode, visualGatekeeper,
    normalizeSelectors, healEmptyTags, validateAndHealComponent,
    injectInferredInputs, validateAndHealStory, validateExtractedFiles, ...)

Modelling conventions:
  * JS strings are `List Char` (ASCII fragment; JS `toLowerCase`/`\s` etc. are
    modelled on ASCII, which is the alphabet the program manipulates).
  * JS numbers are `Int` where the code only does integer arithmetic
    (scores, pixel values) and `Rat` for the 0..1 color channels.
  * JS regular expressions are replaced by hand-written scanners that implement
    the exact matching semantics of the concrete pattern they translate
    (leftmost match, greedy/lazy quantifier behaviour is noted at each scanner).
  * Absent JS object fields are `Option`; JS falsy-defaulting (`x || d`) is
    modelled by `jsOr*` helpers that also treat `""`/`0` as absent.
  * Thrown exceptions (only `extractCodeBlock` throws) are `Option` results.
-/

set_option maxRecDepth 10000

namespace Spec2Proof

/-- Strings of the embedded program: lists of characters. -/
abbrev Str := List Char

theorem length_dropWhile_le {α : Type} (p : α → Bool) :
    ∀ l : List α, (l.dropWhile p).length ≤ l.length := by
  intro l
  induction l with
  | nil => simp [List.dropWhile]
  | cons a t ih =>
    simp only [List.dropWhile]
    cases p a <;> simp <;> omega

/-! ## Generic string utilities shared by both engines -/

/-- JS whitespace class `\s` restricted to ASCII: space, tab, LF, VT, FF, CR. -/
def isWsChar (c : Char) : Bool :=
  c = ' ' || c = '\t' || c = '\n' || c = '\x0b' || c = '\x0c' || c = '\r'

/-- Charwise ASCII lowercasing, JS `toLowerCase` on the ASCII fragment. -/
def lowerStr (s : Str) : Str := s.map Char.toLower

/-- Charwise ASCII uppercasing, JS `toUpperCase` on the ASCII fragment. -/
def upperStr (s : Str) : Str := s.map Char.toUpper

/-- JS `String.prototype.trim` (ASCII whitespace). -/
def trimStr (s : Str) : Str :=
  ((s.dropWhile isWsChar).reverse.dropWhile isWsChar).reverse

/-- JS `haystack.includes(needle)`. -/
def containsSub (pat : Str) (s : Str) : Bool :=
  if pat.isPrefixOf s then true
  else
    match s with
    | [] => false
    | _ :: cs => containsSub pat cs

/-- Case-insensitive prefix test (a regex literal under the `i` flag). -/
def ciIsPrefixOf : Str → Str → Bool
  | [], _ => true
  | _ :: _, [] => false
  | p :: ps, c :: cs => (p.toLower = c.toLower) && ciIsPrefixOf ps cs

/-- Case-insensitive `includes`. -/
def ciContainsSub (pat : Str) (s : Str) : Bool :=
  if ciIsPrefixOf pat s then true
  else
    match s with
    | [] => false
    | _ :: cs => ciContainsSub pat cs

/-- Split at the first occurrence of a literal: returns the part before the
occurrence and the remainder starting at the occurrence (occurrence included). -/
def splitAtFirst (pat : Str) (s : Str) : Option (Str × Str) :=
  if pat.isPrefixOf s then some ([], s)
  else
    match s with
    | [] => none
    | c :: cs => (splitAtFirst pat cs).map (fun x => (c :: x.1, x.2))

/-- Split at the first case-insensitive occurrence of a literal. -/
def splitAtFirstCI (pat : Str) (s : Str) : Option (Str × Str) :=
  if ciIsPrefixOf pat s then some ([], s)
  else
    match s with
    | [] => none
    | c :: cs => (splitAtFirstCI pat cs).map (fun x => (c :: x.1, x.2))

/-- JS `s.replace(literal, repl)`: replace the first occurrence only. -/
def replaceFirstLit (pat repl : Str) (s : Str) : Str :=
  if pat.isPrefixOf s then repl ++ s.drop pat.length
  else
    match s with
    | [] => []
    | c :: cs => c :: replaceFirstLit pat repl cs

/-- Fuel-driven worker for `replaceAllLit`; the fuel only serves structural
termination and is irrelevant once at least `s.length` (see
`replaceAllLitGo_fuel`). -/
def replaceAllLitGo (pat repl : Str) : Nat → Str → Str
  | 0, s => s
  | _ + 1, [] => []
  | fuel + 1, c :: cs =>
    if pat ≠ [] && pat.isPrefixOf (c :: cs) then
      repl ++ replaceAllLitGo pat repl fuel ((c :: cs).drop pat.length)
    else
      c :: replaceAllLitGo pat repl fuel cs

/-- JS `s.replace(/literal/g, repl)`: replace every occurrence, leftmost,
non-overlapping.  A degenerate empty pattern returns the string unchanged
(the program only uses non-empty literals). -/
def replaceAllLit (pat repl : Str) (s : Str) : Str :=
  replaceAllLitGo pat repl s.length s

theorem replaceAllLitGo_fuel (pat repl : Str) :
    ∀ f₁ f₂ : Nat, ∀ s : Str, s.length ≤ f₁ → s.length ≤ f₂ →
      replaceAllLitGo pat repl f₁ s = replaceAllLitGo pat repl f₂ s := by
  intro f₁
  induction f₁ with
  | zero =>
    intro f₂ s h1 h2
    have : s = [] := by
      cases s with
      | nil => rfl
      | cons c cs => simp at h1
    subst this
    cases f₂ <;> rfl
  | succ f ih =>
    intro f₂ s h1 h2
    cases s with
    | nil => cases f₂ <;> rfl
    | cons c cs =>
      cases f₂ with
      | zero => simp at h2
      | succ f₂' =>
        simp only [replaceAllLitGo]
        by_cases hp : (pat ≠ [] && pat.isPrefixOf (c :: cs)) = true
        · simp only [hp, if_true]
          have hlen : ((c :: cs).drop pat.length).length ≤ f := by
            simp only [List.length_drop, List.length_cons]
            have : 1 ≤ pat.length := by
              rcases Bool.and_eq_true_iff.mp hp with ⟨hne, _⟩
              cases pat with
              | nil => simp at hne
              | cons a l => simp
            simp only [List.length_cons] at h1
            omega
          have hlen2 : ((c :: cs).drop pat.length).length ≤ f₂' := by
            simp only [List.length_drop, List.length_cons]
            have : 1 ≤ pat.length := by
              rcases Bool.and_eq_true_iff.mp hp with ⟨hne, _⟩
              cases pat with
              | nil => simp at hne
              | cons a l => simp
            simp only [List.length_cons] at h2
            omega
          rw [ih f₂' _ hlen hlen2]
        · simp only [hp, if_false]
          have hc1 : cs.length ≤ f := by simp at h1; omega
          have hc2 : cs.length ≤ f₂' := by simp at h2; omega
          rw [ih f₂' cs hc1 hc2]
          simp [hp]

/-- Recursion equation for `replaceAllLit` (with the fuel hidden). -/
theorem replaceAllLit_cons (pat repl : Str) (c : Char) (cs : Str) :
    replaceAllLit pat repl (c :: cs) =
      if pat ≠ [] && pat.isPrefixOf (c :: cs) then
        repl ++ replaceAllLit pat repl ((c :: cs).drop pat.length)
      else
        c :: replaceAllLit pat repl cs := by
  have hmain : replaceAllLit pat repl (c :: cs)
      = replaceAllLitGo pat repl (cs.length + 1) (c :: cs) := rfl
  rw [hmain]
  simp only [replaceAllLitGo]
  by_cases hp : (pat ≠ [] && pat.isPrefixOf (c :: cs)) = true
  · simp only [hp, if_true]
    have h1 : 1 ≤ pat.length := by
      rcases Bool.and_eq_true_iff.mp hp with ⟨hne, _⟩
      cases pat with
      | nil => simp at hne
      | cons a l => simp
    have hf := replaceAllLitGo_fuel pat repl cs.length ((c :: cs).drop pat.length).length
      ((c :: cs).drop pat.length) (by simp; omega) (Nat.le_refl _)
    rw [hf]
    rfl
  · simp only [hp, if_false]
    rfl

/-- True when some (possibly improper) suffix of `s` satisfies `f`; used to give
JS regex "match anywhere" semantics to a position matcher. -/
def anySuffix (f : Str → Bool) : Str → Bool
  | [] => f []
  | c :: cs => f (c :: cs) || anySuffix f cs

/-- JS `x || d` for strings: the empty string is falsy. -/
def jsOrStr (o : Option Str) (d : Str) : Str :=
  match o with
  | some s => if s = [] then d else s
  | none => d

/-- JS `x || d` for numbers: 0 is falsy. -/
def jsOrInt (o : Option Int) (d : Int) : Int :=
  match o with
  | some n => if n = 0 then d else n
  | none => d

/-- Render an integer the way JS template literals render an integral number. -/
def intStr (n : Int) : Str := (toString n).toList

/-! ## Governance engine (src/governance-engine.js)

Data model: registry rules, design nodes, violations, scan reports. -/

/-- One declared property of a registry rule (`props` entry).  Only the key of a
property is ever read by the engine; `ptype` models the `type` field and
`required` the `required` flag. -/
structure PropSpec where
  ptype : Str
  required : Bool
deriving DecidableEq

/-- A rule's `composition` object. -/
structure Composition where
  canContain : Option (List Str)
  cannotContain : Option (List Str)
deriving DecidableEq

/-- A registry rule (`registry.components[...]` value). -/
structure Rule where
  props : Option (List (Str × PropSpec))
  composition : Option Composition
deriving DecidableEq

/-- The component registry: key-to-rule map, modelled as an association list. -/
abbrev Registry := List (Str × Rule)

/-- JS `registry.components[k]` (first binding wins). -/
def lookupReg (reg : Registry) (k : Str) : Option Rule :=
  (reg.find? (fun p => p.1 = k)).map (fun p => p.2)

mutual
/-- A design-tool node.  `componentProperties` models the key set of the JS
object (only keys are read); the remaining fields are the ones
`_generateFragment` reads, with `Option` for absent fields.  The child list is
the mutually defined `NodeList` so that the tree walk is plain structural
recursion. -/
inductive Node where
  | mk (id : Str) (name : Str)
       (componentProperties : Option (List Str))
       (backgroundColor : Option Str)
       (borderRadius : Option Int)
       (padding : Option Int)
       (layoutMode : Option Str)
       (children : NodeList)

/-- A list of design-tool nodes. -/
inductive NodeList where
  | nil
  | cons (c : Node) (cs : NodeList)
end

def Node.id : Node → Str
  | .mk i _ _ _ _ _ _ _ => i

def Node.name : Node → Str
  | .mk _ n _ _ _ _ _ _ => n

def Node.componentProperties : Node → Option (List Str)
  | .mk _ _ p _ _ _ _ _ => p

def Node.backgroundColor : Node → Option Str
  | .mk _ _ _ b _ _ _ _ => b

def Node.borderRadius : Node → Option Int
  | .mk _ _ _ _ r _ _ _ => r

def Node.padding : Node → Option Int
  | .mk _ _ _ _ _ p _ _ => p

def Node.layoutMode : Node → Option Str
  | .mk _ _ _ _ _ _ l _ => l

def Node.children : Node → NodeList
  | .mk _ _ _ _ _ _ _ c => c

def NodeList.length : NodeList → Nat
  | .nil => 0
  | .cons _ cs => 1 + cs.length

/-- Violation severity. -/
inductive Severity where
  | CRITICAL
  | MAJOR
  | MINOR
deriving DecidableEq

/-- Severity weights (`this.weights`). -/
def weight : Severity → Int
  | .CRITICAL => 50
  | .MAJOR => 20
  | .MINOR => 5

/-- A recorded violation (argument list of `_addViolation`). -/
structure Violation where
  nodeName : Str
  message : Str
  severity : Severity
  rule : Str
  suggestion : Str
deriving DecidableEq

/-- Scan status of a component. -/
inductive Status where
  | VERIFIED
  | UNKNOWN
  | VIOLATION
deriving DecidableEq

/-- The varying data of a fragment proposal built by `_generateFragment`
(the literal `category`/`description`/`constraints` fields are constants in the
source and are omitted). -/
structure RegistryFragment where
  fragName : Str
  props : List (Str × PropSpec)
  canContain : List Str
  cannotContain : List Str
  backgroundColor : Str
  borderRadius : Int
  padding : Int
  layout : Str
deriving DecidableEq

/-- An entry of `this.scannedComponents`. -/
structure ScannedComponent where
  id : Str
  name : Str
  lookupName : Str
  status : Status
  fragment : Option RegistryFragment
deriving DecidableEq

/-- The breakdown counters. -/
structure Breakdown where
  CRITICAL : Nat
  MAJOR : Nat
  MINOR : Nat
  PASS : Nat
deriving DecidableEq

/-- The engine's mutable accumulators during one `validate` call. -/
structure St where
  score : Int
  violations : List Violation
  scanned : List ScannedComponent
  hasCrit : Bool
  breakdown : Breakdown
deriving DecidableEq

/-- Accumulator state at the start of `validate`. -/
def initSt : St :=
  { score := 100, violations := [], scanned := [], hasCrit := false,
    breakdown := ⟨0, 0, 0, 0⟩ }

/-- `this.breakdown[severity]++`. -/
def bumpBreakdown (b : Breakdown) : Severity → Breakdown
  | .CRITICAL => { b with CRITICAL := b.CRITICAL + 1 }
  | .MAJOR => { b with MAJOR := b.MAJOR + 1 }
  | .MINOR => { b with MINOR := b.MINOR + 1 }

/-- `_addViolation(nodeName, message, severity, rule, suggestion)`. -/
def addViolation (st : St) (v : Violation) : St :=
  { score := st.score - weight v.severity,
    violations := st.violations ++ [v],
    scanned := st.scanned,
    hasCrit := st.hasCrit || (v.severity = .CRITICAL),
    breakdown := bumpBreakdown st.breakdown v.severity }

def applyViolations (st : St) (vs : List Violation) : St :=
  vs.foldl addViolation st

/-- `node.name.split('/')[0].trim().toLowerCase()`. -/
def baseNodeNameOf (name : Str) : Str :=
  lowerStr (trimStr (name.takeWhile (fun c => c ≠ '/')))

/-- Worker for `wsToHyphen`: the flag records whether the previous character
was whitespace (i.e. we are inside a run that already emitted its hyphen). -/
def wsToHyphenGo : Bool → Str → Str
  | _, [] => []
  | inWs, c :: cs =>
    if isWsChar c then
      if inWs then wsToHyphenGo true cs else '-' :: wsToHyphenGo true cs
    else c :: wsToHyphenGo false cs

/-- JS `s.replace(/\s+/g, '-')`: each maximal whitespace run becomes one `-`. -/
def wsToHyphen (s : Str) : Str := wsToHyphenGo false s

/-- `cleanName` of `_recursiveCheck`: base name with whitespace collapsed. -/
def cleanNameOf (name : Str) : Str := wsToHyphen (baseNodeNameOf name)

/-- Strip the reserved `app-` prefix the way the source does
(`startsWith('app-') ? replace('app-', '') : unchanged`). -/
def stripAppDash (s : Str) : Str :=
  if ("app-".toList).isPrefixOf s then replaceFirstLit ("app-".toList) [] s else s

/-- `lookupName` used for the node itself. -/
def lookupNameOf (name : Str) : Str := stripAppDash (cleanNameOf name)

/-- The parent-side normalization in the composition check:
`parentNode.name.toLowerCase().replace(/\s+/g,'-')`, then `app-` stripping.
Differs from `lookupNameOf`: no `split('/')[0]` and no `trim()`. -/
def parentLookupNameOf (name : Str) : Str :=
  stripAppDash (wsToHyphen (lowerStr name))

/-- The `isComponent` test of `_recursiveCheck`. -/
def isComponentOf (reg : Registry) (name : Str) : Bool :=
  ("app-".toList).isPrefixOf (baseNodeNameOf name)
    || (lookupReg reg (lookupNameOf name)).isSome

/-- Keep the first binding for each key (JS object literal semantics for the
`props` object built by `_generateFragment`); `seen` holds the keys already
emitted. -/
def dedupKeysPSGo (seen : List Str) : List (Str × PropSpec) → List (Str × PropSpec)
  | [] => []
  | x :: xs =>
    if seen.contains x.1 then dedupKeysPSGo seen xs
    else x :: dedupKeysPSGo (x.1 :: seen) xs

def dedupKeysPS (l : List (Str × PropSpec)) : List (Str × PropSpec) :=
  dedupKeysPSGo [] l

/-- `_generateFragment(node, name)`. -/
def generateFragment (node : Node) (name : Str) : RegistryFragment :=
  { fragName := name,
    props :=
      match node.componentProperties with
      | some keys =>
        dedupKeysPS (keys.map (fun k =>
          (lowerStr (k.takeWhile (fun c => c ≠ '#')), ⟨"string".toList, false⟩)))
      | none => [],
    canContain := if node.children.length > 0 then ["*".toList] else [],
    cannotContain := [],
    backgroundColor := jsOrStr node.backgroundColor ("transparent".toList),
    borderRadius := jsOrInt node.borderRadius 0,
    padding := jsOrInt node.padding 0,
    layout := jsOrStr node.layoutMode ("none".toList) }

/-- Message/violation builders (template literals of `_recursiveCheck`). -/
def existenceViolation (nodeName lookupName : Str) : Violation :=
  { nodeName := nodeName,
    message := "Component \"".toList ++ lookupName ++ "\" not in Registry.".toList,
    severity := .CRITICAL,
    rule := "Existence Check".toList,
    suggestion := "Register to officialize.".toList }

def nestingViolation (nodeName lookupName parentLookup parentName : Str) : Violation :=
  { nodeName := nodeName,
    message := "Illegal nesting: \"".toList ++ lookupName ++ "\" inside \"".toList
      ++ parentLookup ++ "\".".toList,
    severity := .CRITICAL,
    rule := "Composition".toList,
    suggestion := "Move out of \"".toList ++ parentName ++ "\".".toList }

def unknownPropViolation (nodeName cleanProp : Str) : Violation :=
  { nodeName := nodeName,
    message := "Unknown property \"".toList ++ cleanProp ++ "\".".toList,
    severity := .MINOR,
    rule := "Property Validation".toList,
    suggestion := "Use official props.".toList }

/-- The nesting (composition) check of `_recursiveCheck` for a governed node
with rules, given its traversal parent: the violations it emits (0 or 1) and
the resulting status. -/
def nestingCheck (reg : Registry) (node : Node) (parent : Option Node) :
    List Violation × Status :=
  match parent with
  | none => ([], .VERIFIED)
  | some p =>
    let parentLookup := parentLookupNameOf p.name
    match lookupReg reg parentLookup with
    | none => ([], .VERIFIED)
    | some parentRules =>
      match parentRules.composition with
      | none => ([], .VERIFIED)
      | some comp =>
        match comp.cannotContain with
        | none => ([], .VERIFIED)
        | some cc =>
          if cc.contains (lookupNameOf node.name) || cc.contains ("*".toList) then
            ([nestingViolation node.name (lookupNameOf node.name) parentLookup p.name],
             .VIOLATION)
          else ([], .VERIFIED)

/-- The property check of `_recursiveCheck`: one MINOR violation per unknown
(cleaned, lowercased) property key. -/
def propCheck (node : Node) (componentRules : Rule) : List Violation :=
  match node.componentProperties, componentRules.props with
  | some keys, some rprops =>
    let officialProps := rprops.map (fun p => lowerStr p.1)
    keys.foldl (fun acc propKey =>
      let cleanProp := lowerStr (propKey.takeWhile (fun c => c ≠ '#'))
      if officialProps.contains cleanProp then acc
      else acc ++ [unknownPropViolation node.name cleanProp]) []
  | _, _ => []

/-- The per-node (non-recursive) body of `_recursiveCheck`: the violations
recorded for this node and its `scannedComponents` entry, if governed. -/
def checkComponent (reg : Registry) (node : Node) (parent : Option Node) :
    List Violation × Option ScannedComponent :=
  let lookupName := lookupNameOf node.name
  if isComponentOf reg node.name then
    match lookupReg reg lookupName with
    | none =>
      ([existenceViolation node.name lookupName],
       some ⟨node.id, node.name, lookupName, .UNKNOWN,
             some (generateFragment node lookupName)⟩)
    | some componentRules =>
      let nest := nestingCheck reg node parent
      let pvs := propCheck node componentRules
      (nest.1 ++ pvs, some ⟨node.id, node.name, lookupName, nest.2, none⟩)
  else ([], none)

mutual
/-- `_recursiveCheck(node, parentNode)`, threading the accumulator state. -/
def recursiveCheck (reg : Registry) : Node → Option Node → St → St
  | node@(.mk _ _ _ _ _ _ _ children), parent, st =>
    let r := checkComponent reg node parent
    let st1 := applyViolations st r.1
    let st2 :=
      match r.2 with
      | some sc => { st1 with scanned := st1.scanned ++ [sc] }
      | none => st1
    recursiveCheckList reg node st2 children

/-- `node.children.forEach(child => this._recursiveCheck(child, node))`. -/
def recursiveCheckList (reg : Registry) (p : Node) (st : St) : NodeList → St
  | .nil => st
  | .cons c cs => recursiveCheckList reg p (recursiveCheck reg c (some p) st) cs
end

/-- Recursion equation of `recursiveCheck` through the `children` projection. -/
theorem recursiveCheck_unfold (reg : Registry) (node : Node) (parent : Option Node)
    (st : St) :
    recursiveCheck reg node parent st =
      (let r := checkComponent reg node parent
       let st1 := applyViolations st r.1
       let st2 :=
         match r.2 with
         | some sc => { st1 with scanned := st1.scanned ++ [sc] }
         | none => st1
       recursiveCheckList reg node st2 node.children) := by
  cases node with
  | mk i n pr bg br pd lm children => rfl

/-- The final report of `validate`. -/
structure Report where
  score : Int
  violations : List Violation
  components : List ScannedComponent
  breakdown : Breakdown
  valid : Bool
deriving DecidableEq

/-- `GovernanceEngine.validate(node)`. -/
def validate (reg : Registry) (node : Node) : Report :=
  let st := recursiveCheck reg node none initSt
  let finalScore := max 0 st.score
  { score := finalScore,
    violations := st.violations,
    components := st.scanned,
    breakdown :=
      { st.breakdown with
        PASS := (st.scanned.filter (fun c => c.status = .VERIFIED)).length },
    valid := !st.hasCrit && decide (90 ≤ finalScore) }

/-! ## Structural lemmas about the governance engine -/

/-- Total penalty of a violation list. -/
def wsum (vs : List Violation) : Int := (vs.map (fun v => weight v.severity)).sum

/-- Number of violations of a given severity. -/
def countSev (vs : List Violation) (s : Severity) : Nat :=
  vs.countP (fun v => v.severity = s)

/-- Whether some violation is CRITICAL. -/
def anyCrit (vs : List Violation) : Bool :=
  vs.any (fun v => v.severity = .CRITICAL)

/-- The effect of recording the violations `vs` and the scan entries `ss`
on an accumulator state. -/
def mergeSt (st : St) (vs : List Violation) (ss : List ScannedComponent) : St :=
  { score := st.score - wsum vs,
    violations := st.violations ++ vs,
    scanned := st.scanned ++ ss,
    hasCrit := st.hasCrit || anyCrit vs,
    breakdown :=
      ⟨st.breakdown.CRITICAL + countSev vs .CRITICAL,
       st.breakdown.MAJOR + countSev vs .MAJOR,
       st.breakdown.MINOR + countSev vs .MINOR,
       st.breakdown.PASS⟩ }

theorem wsum_nil : wsum [] = 0 := rfl

theorem wsum_cons (v : Violation) (vs : List Violation) :
    wsum (v :: vs) = weight v.severity + wsum vs := by
  simp [wsum]

theorem wsum_append (a b : List Violation) : wsum (a ++ b) = wsum a + wsum b := by
  simp [wsum]

theorem countSev_nil (s : Severity) : countSev [] s = 0 := rfl

theorem countSev_cons (v : Violation) (vs : List Violation) (s : Severity) :
    countSev (v :: vs) s = (if v.severity = s then 1 else 0) + countSev vs s := by
  simp [countSev, List.countP_cons]
  by_cases h : v.severity = s <;> simp [h] <;> omega

theorem countSev_append (a b : List Violation) (s : Severity) :
    countSev (a ++ b) s = countSev a s + countSev b s := by
  simp [countSev, List.countP_append]

theorem anyCrit_append (a b : List Violation) :
    anyCrit (a ++ b) = (anyCrit a || anyCrit b) := by
  simp [anyCrit]

theorem anyCrit_false_iff (vs : List Violation) :
    anyCrit vs = false ↔ countSev vs .CRITICAL = 0 := by
  induction vs with
  | nil => simp [anyCrit, countSev]
  | cons v t ih =>
    rw [countSev_cons]
    simp only [anyCrit, List.any_cons, Bool.or_eq_false_iff] at *
    constructor
    · rintro ⟨h1, h2⟩
      simp only [decide_eq_false_iff_not] at h1
      simp [h1, ih.mp h2]
    · intro h
      by_cases hv : v.severity = .CRITICAL
      · simp [hv] at h
      · simp only [hv, if_false, Nat.zero_add] at h
        exact ⟨by simp [hv], ih.mpr h⟩

theorem wsum_eq_weighted (vs : List Violation) :
    wsum vs = 50 * (countSev vs .CRITICAL : Int) + 20 * (countSev vs .MAJOR : Int)
      + 5 * (countSev vs .MINOR : Int) := by
  induction vs with
  | nil => simp [wsum_nil, countSev_nil]
  | cons v t ih =>
    rw [wsum_cons, ih, countSev_cons, countSev_cons, countSev_cons]
    cases hv : v.severity <;> simp [hv, weight] <;> push_cast <;> ring

theorem addViolation_eq_merge (st : St) (v : Violation) :
    addViolation st v = mergeSt st [v] [] := by
  cases hv : v.severity <;>
    simp [addViolation, mergeSt, wsum_cons, wsum_nil, countSev_cons, countSev_nil,
      anyCrit, bumpBreakdown, hv]

theorem mergeSt_nil (st : St) : mergeSt st [] [] = st := by
  simp [mergeSt, wsum_nil, countSev_nil, anyCrit]

theorem mergeSt_merge (st : St) (a b : List Violation) (x y : List ScannedComponent) :
    mergeSt (mergeSt st a x) b y = mergeSt st (a ++ b) (x ++ y) := by
  simp [mergeSt, wsum_append, countSev_append, anyCrit_append, Bool.or_assoc]
  omega

theorem applyViolations_eq_merge (vs : List Violation) :
    ∀ st : St, applyViolations st vs = mergeSt st vs [] := by
  induction vs with
  | nil => intro st; simp [applyViolations, mergeSt_nil]
  | cons v t ih =>
    intro st
    show applyViolations (addViolation st v) t = _
    rw [ih, addViolation_eq_merge, mergeSt_merge]
    simp

theorem scanned_push_eq_merge (st : St) (sc : ScannedComponent) :
    { st with scanned := st.scanned ++ [sc] } = mergeSt st [] [sc] := by
  simp [mergeSt, wsum_nil, countSev_nil, anyCrit]

/-- Mutual induction principle for `Node` and `NodeList`. -/
theorem node_rec_pair {P : Node → Prop} {Q : NodeList → Prop}
    (hnode : ∀ n, Q n.children → P n)
    (hnil : Q .nil)
    (hcons : ∀ c cs, P c → Q cs → Q (.cons c cs)) :
    (∀ n, P n) ∧ (∀ cs, Q cs) := by
  have hN : ∀ n, P n := fun n =>
    @Node.rec P Q (fun i nm pr bg br pd lm c ih => hnode (Node.mk i nm pr bg br pd lm c) ih)
      hnil (fun c cs ihc ihcs => hcons c cs ihc ihcs) n
  refine ⟨hN, fun cs => ?_⟩
  exact @NodeList.rec P Q (fun i nm pr bg br pd lm c ih => hnode (Node.mk i nm pr bg br pd lm c) ih)
      hnil (fun c t ihc iht => hcons c t ihc iht) cs

mutual
/-- The violations and scan entries contributed by the subtree rooted at a
node, in traversal order (pure companion of `recursiveCheck`). -/
def collect (reg : Registry) : Node → Option Node → List Violation × List ScannedComponent
  | node@(.mk _ _ _ _ _ _ _ children), parent =>
    let r := checkComponent reg node parent
    let rest := collectList reg node children
    (r.1 ++ rest.1, (match r.2 with | some sc => [sc] | none => []) ++ rest.2)

def collectList (reg : Registry) (p : Node) :
    NodeList → List Violation × List ScannedComponent
  | .nil => ([], [])
  | .cons c cs =>
    let a := collect reg c (some p)
    let b := collectList reg p cs
    (a.1 ++ b.1, a.2 ++ b.2)
end

/-- Recursion equation of `collect` through the `children` projection. -/
theorem collect_unfold (reg : Registry) (node : Node) (parent : Option Node) :
    collect reg node parent =
      (let r := checkComponent reg node parent
       let rest := collectList reg node node.children
       (r.1 ++ rest.1, (match r.2 with | some sc => [sc] | none => []) ++ rest.2)) := by
  cases node with
  | mk i n pr bg br pd lm children => rfl

theorem recursiveCheck_eq_merge (reg : Registry) :
    (∀ n : Node, ∀ p st, recursiveCheck reg n p st
      = mergeSt st (collect reg n p).1 (collect reg n p).2)
    ∧ (∀ cs : NodeList, ∀ pn st, recursiveCheckList reg pn st cs
      = mergeSt st (collectList reg pn cs).1 (collectList reg pn cs).2) := by
  apply node_rec_pair
  · intro n ih p st
    simp only [recursiveCheck_unfold, collect_unfold]
    rw [applyViolations_eq_merge]
    cases hsc : (checkComponent reg n p).2 with
    | none =>
      simp only [hsc]
      rw [ih, mergeSt_merge]
    | some sc =>
      simp only [hsc]
      rw [scanned_push_eq_merge, ih, mergeSt_merge, mergeSt_merge]
      simp
  · intro pn st
    rw [recursiveCheckList, collectList]
    simp [mergeSt_nil]
  · intro c cs ihc ihcs pn st
    rw [recursiveCheckList, collectList]
    rw [ihcs, ihc, mergeSt_merge]

/-- `validate` in terms of the pure `collect` function. -/
theorem validate_eq (reg : Registry) (t : Node) :
    validate reg t =
      { score := max 0 (100 - wsum (collect reg t none).1),
        violations := (collect reg t none).1,
        components := (collect reg t none).2,
        breakdown :=
          ⟨countSev (collect reg t none).1 .CRITICAL,
           countSev (collect reg t none).1 .MAJOR,
           countSev (collect reg t none).1 .MINOR,
           ((collect reg t none).2.filter (fun c => c.status = .VERIFIED)).length⟩,
        valid := !(anyCrit (collect reg t none).1)
          && decide (90 ≤ max 0 (100 - wsum (collect reg t none).1)) } := by
  have h := (recursiveCheck_eq_merge reg).1 t none initSt
  simp only [validate]
  rw [h]
  simp [mergeSt, initSt]

/-- `propCheck` as a filter-and-map over the property keys. -/
theorem propCheck_eq (node : Node) (r : Rule) :
    propCheck node r =
      match node.componentProperties, r.props with
      | some keys, some rprops =>
        (keys.filter (fun k =>
            !((rprops.map (fun p => lowerStr p.1)).contains
              (lowerStr (k.takeWhile (fun c => c ≠ '#')))))).map
          (fun k => unknownPropViolation node.name
            (lowerStr (k.takeWhile (fun c => c ≠ '#'))))
      | _, _ => [] := by
  cases hk : node.componentProperties with
  | none => simp [propCheck, hk]
  | some keys =>
    cases hp : r.props with
    | none => simp [propCheck, hk, hp]
    | some rprops =>
      simp only [propCheck, hk, hp]
      have main : ∀ (f : Str → Bool) (g : Str → Violation) (ks : List Str)
          (acc : List Violation),
          ks.foldl (fun acc k => if f k then acc else acc ++ [g k]) acc
          = acc ++ (ks.filter (fun k => !(f k))).map g := by
        intro f g ks
        induction ks with
        | nil => intro acc; simp
        | cons k t ih =>
          intro acc
          rw [List.foldl_cons, List.filter_cons]
          cases hc : f k with
          | true => simp [hc, ih]
          | false => simp [hc, ih]
      exact (main
        (fun k => (rprops.map (fun p => lowerStr p.1)).contains
          (lowerStr (k.takeWhile (fun c => c ≠ '#'))))
        (fun k => unknownPropViolation node.name
          (lowerStr (k.takeWhile (fun c => c ≠ '#'))))
        keys []).trans (List.nil_append _)

/-- Every property-check violation carries the rule `Property Validation`. -/
theorem propCheck_rule (node : Node) (r : Rule) :
    ∀ v ∈ propCheck node r, v.rule = "Property Validation".toList := by
  intro v hv
  rw [propCheck_eq] at hv
  cases hk : node.componentProperties with
  | none => simp [hk] at hv
  | some keys =>
    cases hp : r.props with
    | none => simp [hk, hp] at hv
    | some rprops =>
      simp only [hk, hp, List.mem_map] at hv
      obtain ⟨k, _, rfl⟩ := hv
      rfl

/-- The cannot-contain list the nesting check will consult for a key. -/
def cannotContainOf (reg : Registry) (k : Str) : Option (List Str) :=
  match lookupReg reg k with
  | some r =>
    match r.composition with
    | some c => c.cannotContain
    | none => none
  | none => none

theorem nestingCheck_eq (reg : Registry) (node : Node) (parent : Option Node) :
    nestingCheck reg node parent =
      match parent with
      | none => ([], .VERIFIED)
      | some p =>
        match cannotContainOf reg (parentLookupNameOf p.name) with
        | none => ([], .VERIFIED)
        | some cc =>
          if cc.contains (lookupNameOf node.name) || cc.contains ("*".toList) then
            ([nestingViolation node.name (lookupNameOf node.name)
                (parentLookupNameOf p.name) p.name], .VIOLATION)
          else ([], .VERIFIED) := by
  cases parent with
  | none => rfl
  | some p =>
    cases hl : lookupReg reg (parentLookupNameOf p.name) with
    | none => simp [nestingCheck, cannotContainOf, hl]
    | some r =>
      cases hc : r.composition with
      | none => simp [nestingCheck, cannotContainOf, hl, hc]
      | some c => simp [nestingCheck, cannotContainOf, hl, hc]

/-! Registry relations: registries that agree everywhere except on `required`
flags, resp. except on `canContain` lists. -/

/-- Strip the `required` flags from a property table. -/
def stripReq (l : List (Str × PropSpec)) : List (Str × Str) :=
  l.map (fun x => (x.1, x.2.ptype))

def RuleReqAgnostic (a b : Rule) : Prop :=
  a.props.map stripReq = b.props.map stripReq ∧ a.composition = b.composition

def RegReqAgnostic (r₁ r₂ : Registry) : Prop :=
  List.Forall₂ (fun x y => x.1 = y.1 ∧ RuleReqAgnostic x.2 y.2) r₁ r₂

def RuleCanAgnostic (a b : Rule) : Prop :=
  a.props = b.props
    ∧ a.composition.map Composition.cannotContain = b.composition.map Composition.cannotContain

def RegCanAgnostic (r₁ r₂ : Registry) : Prop :=
  List.Forall₂ (fun x y => x.1 = y.1 ∧ RuleCanAgnostic x.2 y.2) r₁ r₂

theorem lookupReg_rel {R : Rule → Rule → Prop} :
    ∀ {r₁ r₂ : Registry},
      List.Forall₂ (fun x y => x.1 = y.1 ∧ R x.2 y.2) r₁ r₂ → ∀ k : Str,
      (lookupReg r₁ k = none ∧ lookupReg r₂ k = none)
      ∨ ∃ a b, lookupReg r₁ k = some a ∧ lookupReg r₂ k = some b ∧ R a b := by
  intro r₁ r₂ h
  induction h with
  | nil => intro k; left; simp [lookupReg]
  | @cons x y l₁ l₂ hxy htail ih =>
    intro k
    obtain ⟨hk, hR⟩ := hxy
    by_cases hkey : x.1 = k
    · right
      refine ⟨x.2, y.2, ?_, ?_, hR⟩ <;>
        simp [lookupReg, List.find?, hkey, hk ▸ hkey]
    · have hkey2 : ¬(y.1 = k) := by rw [← hk]; exact hkey
      have e1 : lookupReg (x :: l₁) k = lookupReg l₁ k := by
        simp [lookupReg, List.find?, hkey]
      have e2 : lookupReg (y :: l₂) k = lookupReg l₂ k := by
        simp [lookupReg, List.find?, hkey2]
      rw [e1, e2]
      exact ih k

theorem stripReq_names (l : List (Str × PropSpec)) :
    (stripReq l).map Prod.fst = l.map Prod.fst := by
  simp [stripReq]

/-- Pointwise equality of the per-node check transfers to the whole report. -/
theorem validate_congr (r₁ r₂ : Registry)
    (hcc : ∀ n p, checkComponent r₁ n p = checkComponent r₂ n p) :
    ∀ t, validate r₁ t = validate r₂ t := by
  have hcol : (∀ n : Node, ∀ p, collect r₁ n p = collect r₂ n p)
      ∧ (∀ cs : NodeList, ∀ pn, collectList r₁ pn cs = collectList r₂ pn cs) := by
    apply node_rec_pair
    · intro n ih p
      rw [collect_unfold, collect_unfold, hcc, ih]
    · intro pn
      rw [collectList, collectList]
    · intro c cs ihc ihcs pn
      rw [collectList, collectList, ihc, ihcs]
  intro t
  rw [validate_eq, validate_eq, hcol.1 t none]

theorem checkComponent_req {r₁ r₂ : Registry} (h : RegReqAgnostic r₁ r₂) :
    ∀ n p, checkComponent r₁ n p = checkComponent r₂ n p := by
  intro n p
  have hcan : ∀ k, cannotContainOf r₁ k = cannotContainOf r₂ k := by
    intro k
    rcases lookupReg_rel h k with ⟨h1, h2⟩ | ⟨a, b, h1, h2, hR⟩
    · simp [cannotContainOf, h1, h2]
    · simp only [cannotContainOf, h1, h2]
      rw [hR.2]
  have hnest : ∀ pa, nestingCheck r₁ n pa = nestingCheck r₂ n pa := by
    intro pa
    rw [nestingCheck_eq, nestingCheck_eq]
    cases pa with
    | none => rfl
    | some pp => simp only []; rw [hcan]
  have hcomp : ∀ nd, ∀ a b, RuleReqAgnostic a b → propCheck nd a = propCheck nd b := by
    intro nd a b hR
    cases hk : nd.componentProperties with
    | none => simp [propCheck, hk]
    | some keys =>
      cases hpa : a.props with
      | none =>
        have hb : b.props = none := by
          have := hR.1
          rw [hpa] at this
          cases hpb : b.props with
          | none => rfl
          | some lb => rw [hpb] at this; simp at this
        simp [propCheck, hk, hpa, hb]
      | some la =>
        cases hpb : b.props with
        | none =>
          have := hR.1
          rw [hpa, hpb] at this
          simp at this
        | some lb =>
          have hst : stripReq la = stripReq lb := by
            have := hR.1
            rw [hpa, hpb] at this
            simpa using this
          have hnames : la.map (fun p => lowerStr p.1) = lb.map (fun p => lowerStr p.1) := by
            have h1 : la.map Prod.fst = lb.map Prod.fst := by
              rw [← stripReq_names, ← stripReq_names, hst]
            have h2 : (la.map Prod.fst).map lowerStr = (lb.map Prod.fst).map lowerStr := by
              rw [h1]
            simpa [List.map_map, Function.comp] using h2
          simp only [propCheck, hk, hpa, hpb, hnames]
  rcases lookupReg_rel h (lookupNameOf n.name) with ⟨h1, h2⟩ | ⟨a, b, h1, h2, hR⟩
  · simp [checkComponent, isComponentOf, h1, h2]
  · simp only [checkComponent, isComponentOf, h1, h2, Option.isSome_some, Bool.or_true]
    rw [hnest p, hcomp n a b hR]

theorem checkComponent_can {r₁ r₂ : Registry} (h : RegCanAgnostic r₁ r₂) :
    ∀ n p, checkComponent r₁ n p = checkComponent r₂ n p := by
  intro n p
  have hcan : ∀ k, cannotContainOf r₁ k = cannotContainOf r₂ k := by
    intro k
    rcases lookupReg_rel h k with ⟨h1, h2⟩ | ⟨a, b, h1, h2, hR⟩
    · simp [cannotContainOf, h1, h2]
    · simp only [cannotContainOf, h1, h2]
      have := hR.2
      cases hca : a.composition with
      | none =>
        rw [hca] at this
        cases hcb : b.composition with
        | none => rfl
        | some cb => rw [hcb] at this; simp at this
      | some ca =>
        cases hcb : b.composition with
        | none => rw [hca, hcb] at this; simp at this
        | some cb =>
          rw [hca, hcb] at this
          simpa using this
  have hnest : ∀ pa, nestingCheck r₁ n pa = nestingCheck r₂ n pa := by
    intro pa
    rw [nestingCheck_eq, nestingCheck_eq]
    cases pa with
    | none => rfl
    | some pp => simp only []; rw [hcan]
  rcases lookupReg_rel h (lookupNameOf n.name) with ⟨h1, h2⟩ | ⟨a, b, h1, h2, hR⟩
  · simp [checkComponent, isComponentOf, h1, h2]
  · simp only [checkComponent, isComponentOf, h1, h2, Option.isSome_some, Bool.or_true]
    rw [hnest p]
    have : propCheck n a = propCheck n b := by
      unfold propCheck
      rw [hR.1]
    rw [this]

/-! ## Claims about the governance engine -/

/-- C1.  For every node tree and registry, the report returned by `validate`
satisfies: `score = max 0 (100 - 50*#CRITICAL - 20*#MAJOR - 5*#MINOR)` (counted
over the returned violation list), hence `0 ≤ score ≤ 100`; and `valid` is true
iff no CRITICAL violation was recorded and `score ≥ 90`. -/
theorem claim_C1 (reg : Registry) (t : Node) :
    (validate reg t).score =
      max 0 (100 - 50 * (countSev (validate reg t).violations .CRITICAL : Int)
        - 20 * (countSev (validate reg t).violations .MAJOR : Int)
        - 5 * (countSev (validate reg t).violations .MINOR : Int))
    ∧ 0 ≤ (validate reg t).score ∧ (validate reg t).score ≤ 100
    ∧ ((validate reg t).valid = true ↔
        countSev (validate reg t).violations .CRITICAL = 0
          ∧ 90 ≤ (validate reg t).score) := by
  rw [validate_eq]
  simp only []
  have hw := wsum_eq_weighted (collect reg t none).1
  refine ⟨?_, ?_, ?_, ?_⟩
  · rw [hw]; ring_nf
  · exact le_max_left 0 _
  · rw [hw]
    have h0 : (0 : Int) ≤ 50 * (countSev (collect reg t none).1 .CRITICAL : Int)
        + 20 * (countSev (collect reg t none).1 .MAJOR : Int)
        + 5 * (countSev (collect reg t none).1 .MINOR : Int) := by positivity
    omega
  · rw [Bool.and_eq_true, Bool.not_eq_true', anyCrit_false_iff, decide_eq_true_iff]

/-- C10.  In every report returned by `validate`, the CRITICAL/MAJOR/MINOR
breakdown counters equal the number of violations of that severity in the
returned list; and `_addViolation` appends exactly one entry to the violation
list while incrementing exactly one of the three severity counters. -/
theorem claim_C10 (reg : Registry) (t : Node) :
    ((validate reg t).breakdown.CRITICAL = countSev (validate reg t).violations .CRITICAL
      ∧ (validate reg t).breakdown.MAJOR = countSev (validate reg t).violations .MAJOR
      ∧ (validate reg t).breakdown.MINOR = countSev (validate reg t).violations .MINOR)
    ∧ (∀ st v, (addViolation st v).violations = st.violations ++ [v]
        ∧ (addViolation st v).breakdown.CRITICAL + (addViolation st v).breakdown.MAJOR
            + (addViolation st v).breakdown.MINOR
          = st.breakdown.CRITICAL + st.breakdown.MAJOR + st.breakdown.MINOR + 1) := by
  constructor
  · rw [validate_eq]
    exact ⟨rfl, rfl, rfl⟩
  · intro st v
    refine ⟨rfl, ?_⟩
    cases hv : v.severity <;> simp [addViolation, bumpBreakdown, hv] <;> omega

/-- C2.  A governed node with a matching registry rule, whose traversal parent's
looked-up rule carries a `cannotContain` list containing the node's lookup name
or the wildcard, receives exactly one CRITICAL illegal-nesting (`Composition`)
violation from its per-node check; and the `canContain` allow-lists of a
registry never influence any part of any validation report. -/
theorem claim_C2 (reg : Registry) (node parent : Node) (rule prule : Rule)
    (comp : Composition) (cc : List Str)
    (h1 : lookupReg reg (lookupNameOf node.name) = some rule)
    (h2 : lookupReg reg (parentLookupNameOf parent.name) = some prule)
    (h3 : prule.composition = some comp)
    (h4 : comp.cannotContain = some cc)
    (h5 : (cc.contains (lookupNameOf node.name) || cc.contains ("*".toList)) = true) :
    ((checkComponent reg node (some parent)).1.filter
        (fun v => v.rule = "Composition".toList)
      = [nestingViolation node.name (lookupNameOf node.name)
          (parentLookupNameOf parent.name) parent.name])
    ∧ (nestingViolation node.name (lookupNameOf node.name)
        (parentLookupNameOf parent.name) parent.name).severity = .CRITICAL
    ∧ (∀ reg₁ reg₂ : Registry, ∀ t : Node, RegCanAgnostic reg₁ reg₂ →
        validate reg₁ t = validate reg₂ t) := by
  refine ⟨?_, rfl, ?_⟩
  · have hcomp : isComponentOf reg node.name = true := by
      simp [isComponentOf, h1]
    have hnest : nestingCheck reg node (some parent)
        = ([nestingViolation node.name (lookupNameOf node.name)
            (parentLookupNameOf parent.name) parent.name], .VIOLATION) := by
      rw [nestingCheck_eq]
      simp only [cannotContainOf, h2, h3, h4, h5, if_true]
    simp only [checkComponent, hcomp, if_true, h1, hnest]
    rw [List.filter_append]
    have hl : List.filter (fun v => decide (v.rule = "Composition".toList))
        [nestingViolation node.name (lookupNameOf node.name)
          (parentLookupNameOf parent.name) parent.name]
        = [nestingViolation node.name (lookupNameOf node.name)
          (parentLookupNameOf parent.name) parent.name] := by
      simp [nestingViolation]
    have hr : List.filter (fun v => decide (v.rule = "Composition".toList))
        (propCheck node rule) = [] := by
      rw [List.filter_eq_nil_iff]
      intro v hv
      have := propCheck_rule node rule v hv
      simp only [decide_eq_true_eq, this]
      intro hcontra
      have : ('P' : Char) = 'C' := by
        have := congrArg (fun l => l.headI) hcontra
        simpa using this
      exact absurd this (by decide)
    rw [hl, hr]
    simp
  · intro reg₁ reg₂ t hR
    exact validate_congr reg₁ reg₂ (checkComponent_can hR) t

/-- Witness for C2 at a concrete registry and tree: a `card` rule forbids
`button`, the parent is named `card`, the child `app-button`. -/
theorem claim_C2_witness :
    ((checkComponent
        [("card".toList, ⟨none, some ⟨none, some ["button".toList]⟩⟩),
         ("button".toList, ⟨some [("variant".toList, ⟨"string".toList, true⟩)], none⟩)]
        (Node.mk "c".toList "app-button".toList none none none none none .nil)
        (some (Node.mk "p".toList "card".toList none none none none none .nil))).1.filter
          (fun v => v.rule = "Composition".toList)
      = [nestingViolation "app-button".toList "button".toList "card".toList
          "card".toList]) := by
  have h := claim_C2
    [("card".toList, ⟨none, some ⟨none, some ["button".toList]⟩⟩),
     ("button".toList, ⟨some [("variant".toList, ⟨"string".toList, true⟩)], none⟩)]
    (Node.mk "c".toList "app-button".toList none none none none none .nil)
    (Node.mk "p".toList "card".toList none none none none none .nil)
    ⟨some [("variant".toList, ⟨"string".toList, true⟩)], none⟩
    ⟨none, some ⟨none, some ["button".toList]⟩⟩
    ⟨none, some ["button".toList]⟩
    ["button".toList]
    (by decide) (by decide) (by decide) (by decide) (by decide)
  exact h.1

/-- C9.  The `required` flags of registry properties never affect any part of a
validation report; and the property check only ever records violations for
property keys present on the node whose cleaned name is not among the rule's
declared names — omitting a declared (even `required`) property records
nothing. -/
theorem claim_C9 :
    (∀ reg₁ reg₂ : Registry, ∀ t : Node, RegReqAgnostic reg₁ reg₂ →
      validate reg₁ t = validate reg₂ t)
    ∧ (∀ (node : Node) (r : Rule) (keys : List Str) (rprops : List (Str × PropSpec)),
        node.componentProperties = some keys → r.props = some rprops →
        propCheck node r
          = (keys.filter (fun k =>
              !((rprops.map (fun p => lowerStr p.1)).contains
                (lowerStr (k.takeWhile (fun c => c ≠ '#')))))).map
            (fun k => unknownPropViolation node.name
              (lowerStr (k.takeWhile (fun c => c ≠ '#'))))) := by
  constructor
  · intro reg₁ reg₂ t hR
    exact validate_congr reg₁ reg₂ (checkComponent_req hR) t
  · intro node r keys rprops hk hp
    rw [propCheck_eq]
    simp only [hk, hp]

/-- Witness for C9: flipping a `required` flag leaves the report unchanged, and
a node that omits the required `variant` property gets no property violation. -/
theorem claim_C9_witness :
    validate [("button".toList, ⟨some [("variant".toList, ⟨"string".toList, true⟩)], none⟩)]
      (Node.mk "1".toList "app-button".toList (some ["size".toList]) none none none none .nil)
    = validate [("button".toList, ⟨some [("variant".toList, ⟨"string".toList, false⟩)], none⟩)]
      (Node.mk "1".toList "app-button".toList (some ["size".toList]) none none none none .nil)
    ∧ propCheck
        (Node.mk "1".toList "app-button".toList (some [] : Option (List Str))
          none none none none .nil)
        ⟨some [("variant".toList, ⟨"string".toList, true⟩)], none⟩ = [] := by
  constructor
  · exact claim_C9.1 _ _ _
      (List.Forall₂.cons ⟨rfl, by constructor <;> rfl⟩ List.Forall₂.nil)
  · have h := claim_C9.2
      (Node.mk "1".toList "app-button".toList (some [] : Option (List Str))
        none none none none .nil)
      ⟨some [("variant".toList, ⟨"string".toList, true⟩)], none⟩
      [] [("variant".toList, ⟨"string".toList, true⟩)] rfl rfl
    rw [h]
    rfl

/-- C4 counterexample.  The parent-side normalization is NOT the same as the
node's own: it skips `split('/')[0]` and `trim()`.  At the parent name
`Card/Primary`, the composition check consults the registry under
`card/primary` (finding nothing), while scanning that same node consults
`card`; as a consequence a `cannotContain` rule on `card` is not enforced for
a slash-variant parent, and validation records no violation at all. -/
theorem claim_C4_counterexample :
    parentLookupNameOf ("Card/Primary".toList) ≠ lookupNameOf ("Card/Primary".toList)
    ∧ parentLookupNameOf (" card".toList) ≠ lookupNameOf (" card".toList)
    ∧ lookupReg
        [("card".toList, ⟨none, some ⟨none, some ["button".toList]⟩⟩),
         ("button".toList, ⟨none, none⟩)]
        (parentLookupNameOf ("Card/Primary".toList)) = none
    ∧ lookupReg
        [("card".toList, ⟨none, some ⟨none, some ["button".toList]⟩⟩),
         ("button".toList, ⟨none, none⟩)]
        (lookupNameOf ("Card/Primary".toList))
      = some ⟨none, some ⟨none, some ["button".toList]⟩⟩
    ∧ (validate
        [("card".toList, ⟨none, some ⟨none, some ["button".toList]⟩⟩),
         ("button".toList, ⟨none, none⟩)]
        (Node.mk "p".toList "Card/Primary".toList none none none none none
          (.cons (Node.mk "c".toList "app-button".toList none none none none none .nil)
            .nil))).violations = [] := by
  refine ⟨by decide, by decide, by decide, by decide, by decide⟩

theorem takeWhile_ne_of_not_contains (x : Char) :
    ∀ l : Str, l.contains x = false → l.takeWhile (fun c => c ≠ x) = l := by
  intro l
  induction l with
  | nil => intro _; rfl
  | cons c cs ih =>
    intro h
    simp only [List.contains_cons, Bool.or_eq_false_iff] at h
    obtain ⟨h1, h2⟩ := h
    have hcx : c ≠ x := by
      intro hc
      rw [hc] at h1
      simp at h1
    simp only [List.takeWhile_cons]
    simp only [hcx, decide_eq_true_eq, if_true, decide_True]
    rw [ih h2]
    simp [hcx]

/-- C4 amended.  The parent's lookup name is computed by lowercasing the whole
name, collapsing whitespace runs to hyphens and stripping the reserved `app-`
prefix — without taking the first slash-delimited segment and without
trimming.  For parent names containing no `/` and no leading or trailing
whitespace the two normalizations coincide, and then the rule consulted for
the parent during its child's composition check equals the rule looked up when
scanning the parent itself. -/
theorem claim_C4_amended (name : Str)
    (hslash : name.contains '/' = false)
    (htrim : trimStr name = name) :
    parentLookupNameOf name = lookupNameOf name
    ∧ ∀ reg : Registry,
        lookupReg reg (parentLookupNameOf name) = lookupReg reg (lookupNameOf name) := by
  have hbase : baseNodeNameOf name = lowerStr name := by
    unfold baseNodeNameOf
    rw [takeWhile_ne_of_not_contains '/' name hslash, htrim]
  have hmain : parentLookupNameOf name = lookupNameOf name := by
    unfold parentLookupNameOf lookupNameOf cleanNameOf
    rw [hbase]
  exact ⟨hmain, fun reg => by rw [hmain]⟩

/-- Witness for the amended C4 at the slash-free, trimmed name `app-card`. -/
theorem claim_C4_amended_witness :
    parentLookupNameOf ("app-card".toList) = lookupNameOf ("app-card".toList) :=
  (claim_C4_amended ("app-card".toList) (by decide) (by decide)).1

/-! ## Output handler (src/design-validator.js): color helpers -/

/-- JS `Math.round`: round half away from negative infinity. -/
def jsRound (q : ℚ) : ℤ := ⌊q + 1 / 2⌋

/-- JS `n.toString(16)` for the integers the color code produces. -/
def jsNumToHex (i : ℤ) : Str :=
  if i < 0 then '-' :: Nat.toDigits 16 i.natAbs else Nat.toDigits 16 i.toNat

/-- `rgbToHex(r, g, b)`: 0..1 channels to an uppercase `#RRGGBB` string. -/
def rgbToHex (r g b : ℚ) : Str :=
  let toHex := fun (c : ℚ) =>
    let hex := jsNumToHex (jsRound (c * 255))
    if hex.length = 1 then '0' :: hex else hex
  upperStr ('#' :: (toHex r ++ toHex g ++ toHex b))

/-- The luminance computed inside `getContrastColor`. -/
def luminance (r g b : ℚ) : ℚ :=
  (0.299 * r * 255 + 0.587 * g * 255 + 0.114 * b * 255) / 255

/-- `getContrastColor(r, g, b)`. -/
def getContrastColor (r g b : ℚ) : Str :=
  if luminance r g b > 0.5 then "#000000".toList else "#FFFFFF".toList

theorem luminance_eq (r g b : ℚ) :
    luminance r g b = 0.299 * r + 0.587 * g + 0.114 * b := by
  unfold luminance
  ring

/-- C7.  `rgbToHex(1,0,0) = "#FF0000"`; the contrast color is white for
`(1,0,0)` (luminance 0.299) and black for `(1,1,1)` (luminance 1); a color
whose luminance is exactly 1/2 gets white; and in general the contrast color
is black iff `0.299 r + 0.587 g + 0.114 b > 1/2`. -/
theorem claim_C7 :
    rgbToHex 1 0 0 = "#FF0000".toList
    ∧ getContrastColor 1 0 0 = "#FFFFFF".toList
    ∧ getContrastColor 1 1 1 = "#000000".toList
    ∧ (∀ r g b : ℚ, 0.299 * r + 0.587 * g + 0.114 * b = 1 / 2 →
        getContrastColor r g b = "#FFFFFF".toList)
    ∧ (∀ r g b : ℚ, (getContrastColor r g b = "#000000".toList ↔
        0.299 * r + 0.587 * g + 0.114 * b > 1 / 2)) := by
  refine ⟨?_, ?_, ?_, ?_, ?_⟩
  · have h255 : jsRound ((1 : ℚ) * 255) = 255 := by
      unfold jsRound; norm_num [Int.floor_eq_iff]
    have h0 : jsRound ((0 : ℚ) * 255) = 0 := by
      unfold jsRound; norm_num [Int.floor_eq_iff]
    simp only [rgbToHex]
    rw [h255, h0]
    decide
  · unfold getContrastColor luminance
    norm_num
  · unfold getContrastColor luminance
    norm_num
  · intro r g b h
    have hlt : ¬ (luminance r g b > 0.5) := by
      rw [luminance_eq, h]
      norm_num
    unfold getContrastColor
    rw [if_neg hlt]
  · intro r g b
    unfold getContrastColor
    rw [luminance_eq]
    by_cases h : 0.299 * r + 0.587 * g + 0.114 * b > 0.5
    · simp only [h, if_true]
      constructor
      · intro _
        calc (1 : ℚ) / 2 = 0.5 := by norm_num
        _ < _ := h
      · intro _; trivial
    · simp only [h, if_false]
      constructor
      · intro hcontra
        exact absurd hcontra (by decide)
      · intro hgt
        exact absurd (by calc (0.5 : ℚ) = 1 / 2 := by norm_num
                         _ < _ := hgt) h

/-- Witness for C7 at the boundary color `(1/2, 1/2, 1/2)` whose luminance is
exactly 1/2. -/
theorem claim_C7_witness :
    getContrastColor (1 / 2) (1 / 2) (1 / 2) = "#FFFFFF".toList :=
  claim_C7.2.2.2.1 (1 / 2) (1 / 2) (1 / 2) (by norm_num)

/-! ## Output handler: selector normalization (`normalizeSelectors`) -/

/-- Characters allowed in the class-name capture `[a-z0-9-_]`. -/
def isClassNameChar (c : Char) : Bool :=
  ('a' ≤ c && c ≤ 'z') || ('0' ≤ c && c ≤ '9') || c = '-' || c = '_'

/-- Match of `\.([a-z0-9-_]+)\s*\{` at the head of `s`; returns the captured
class name.  (`\s*` is maximal because `\s` and `{` are disjoint.) -/
def matchClassDef (s : Str) : Option Str :=
  match s with
  | '.' :: rest =>
    let nm := rest.takeWhile isClassNameChar
    if nm = [] then none
    else
      match (rest.drop nm.length).dropWhile isWsChar with
      | '{' :: _ => some nm
      | _ => none
  | _ => none

/-- Scan for the first class definition at a position following a line
terminator (the `m`-flag `^` positions other than 0). -/
def firstTLCAfterNl : Str → Option Str
  | [] => none
  | c :: cs =>
    if c = '\n' || c = '\r' then
      match matchClassDef cs with
      | some nm => some nm
      | none => firstTLCAfterNl cs
    else firstTLCAfterNl cs

/-- First match of `/^\.([a-z0-9-_]+)\s*\{/m`: the earliest line-start class
definition. -/
def firstTopLevelClass (s : Str) : Option Str :=
  match matchClassDef s with
  | some nm => some nm
  | none => firstTLCAfterNl s

/-- Number of line-start positions at which `\.([a-z0-9-_]+)\s*\{` matches
(used to state how many top-level class definitions the style sheet has). -/
def countTLCAfterNl : Str → Nat
  | [] => 0
  | c :: cs =>
    (if (c = '\n' || c = '\r') && (matchClassDef cs).isSome then 1 else 0)
      + countTLCAfterNl cs

def countTopLevelClassDefs (s : Str) : Nat :=
  (if (matchClassDef s).isSome then 1 else 0) + countTLCAfterNl s

/-- `normalizeSelectors(files)` as a function of the html and scss contents:
returns the (possibly) rewritten scss content. -/
def normalizeSelectors (html scss : Str) : Str :=
  if containsSub ("class=\"btn".toList) html || containsSub ("class='btn".toList) html then
    if !(containsSub (".btn \x7b".toList) scss) && !(containsSub (".btn:".toList) scss)
        && !(containsSub (".btn,".toList) scss) then
      match firstTopLevelClass scss with
      | some nm =>
        if nm ≠ "btn".toList then
          replaceAllLit ('.' :: nm) (".btn".toList) scss
        else scss
      | none => scss
    else scss
  else scss

/-- C5 counterexample.  A style artifact defining the two top-level custom
classes `.foo` and `.bar` (neither being `.btn`), with markup referencing
`.btn`, IS rewritten: the code renames the first top-level class even when two
or more other classes are defined, while the claim says nothing is renamed in
that case. -/
theorem claim_C5_counterexample :
    countTopLevelClassDefs
        (".foo \x7b\ncolor: red;\n\x7d\n.bar \x7b\n\x7d".toList) = 2
    ∧ normalizeSelectors ("<div class=\"btn\"></div>".toList)
        (".foo \x7b\ncolor: red;\n\x7d\n.bar \x7b\n\x7d".toList)
      ≠ (".foo \x7b\ncolor: red;\n\x7d\n.bar \x7b\n\x7d".toList)
    ∧ normalizeSelectors ("<div class=\"btn\"></div>".toList)
        (".foo \x7b\ncolor: red;\n\x7d\n.bar \x7b\n\x7d".toList)
      = (".btn \x7b\ncolor: red;\n\x7d\n.bar \x7b\n\x7d".toList) := by
  refine ⟨by decide, by decide, by decide⟩

/-- C5 amended.  The rename fires exactly when the markup contains
`class="btn` or `class='btn`, the style artifact contains none of `.btn {`,
`.btn:`, `.btn,`, and the style artifact has a first top-level custom class
whose name is not `btn`; it then renames every occurrence of `.<thatClass>` to
`.btn` — regardless of how many other top-level classes are defined. -/
theorem claim_C5_amended (html scss : Str) (nm : Str)
    (hhtml : (containsSub ("class=\"btn".toList) html
      || containsSub ("class='btn".toList) html) = true)
    (hbtn1 : containsSub (".btn \x7b".toList) scss = false)
    (hbtn2 : containsSub (".btn:".toList) scss = false)
    (hbtn3 : containsSub (".btn,".toList) scss = false)
    (hfirst : firstTopLevelClass scss = some nm)
    (hnm : nm ≠ "btn".toList) :
    normalizeSelectors html scss = replaceAllLit ('.' :: nm) (".btn".toList) scss := by
  unfold normalizeSelectors
  rw [hhtml, hbtn1, hbtn2, hbtn3, hfirst]
  simp [hnm]
  intro hc
  exact absurd hc hnm

/-- Witness for the amended C5: both `.foo` and `.bar` defined, `.foo` (the
first) renamed everywhere. -/
theorem claim_C5_amended_witness :
    normalizeSelectors ("<div class=\"btn\"></div>".toList)
        (".foo \x7b\ncolor: .foo;\n\x7d\n.bar \x7b\n\x7d".toList)
      = replaceAllLit ('.' :: "foo".toList) (".btn".toList)
        (".foo \x7b\ncolor: .foo;\n\x7d\n.bar \x7b\n\x7d".toList) :=
  claim_C5_amended _ _ ("foo".toList) (by decide) (by decide) (by decide) (by decide)
    (by decide) (by decide)

/-! ## Output handler: content healer (`healEmptyTags`)

The regex `/(<button[^>]*>)\s*(<\/button>)/gi` is modelled by the positional
matcher `tryBtn` (case-insensitive literals, `[^>]*` maximal because it cannot
cross `>`, `\s*` maximal because `<` is not whitespace) and the global replace
by the fuel-driven scan `repBtn`. -/

/-- An inferred input descriptor (`{name, type, defaultValue}` entries of the
input-inference stage; `default` is the field `injectInferredInputs` reads,
which may be a string or a number). -/
inductive JsPrim where
  | s (v : Str)
  | n (v : Int)
deriving DecidableEq

structure InferredInput where
  name : Str
  ty : Str
  defaultValue : Option Str
  default : Option JsPrim
deriving DecidableEq

/-- The inferred-inputs object (`{inputs, warnings}`). -/
structure InputsObj where
  inputs : List InferredInput
  warnings : List Str
deriving DecidableEq

/-- Match of `(<button[^>]*>)\s*(<\/button>)` at the head of `s`: returns the
matched opening tag (original casing), the matched closing literal (original
casing) and the remainder; the whitespace between them is dropped (it is in
neither capture group). -/
def tryBtn (s : Str) : Option (Str × Str × Str) :=
  if ciIsPrefixOf ("<button".toList) s then
    let s1 := s.drop 7
    let a := s1.takeWhile (fun c => c ≠ '>')
    if a.length < s1.length then
      let tag := s.take (7 + a.length + 1)
      let s2 := s1.drop (a.length + 1)
      let w := s2.takeWhile isWsChar
      let s3 := s2.drop w.length
      if ciIsPrefixOf ("</button>".toList) s3 then
        some (tag, s3.take 9, s3.drop 9)
      else none
    else none
  else none

/-- The injected replacement text for group separator: `$1{{ v }}$2` inserts
this between the two groups. -/
def insOf (v : Str) : Str := "\x7b\x7b ".toList ++ v ++ " \x7d\x7d".toList

/-- Fuel-driven worker for the global replace of the empty-button pattern. -/
def repBtnGo (v : Str) : Nat → Str → Str
  | 0, s => s
  | _ + 1, [] => []
  | fuel + 1, c :: cs =>
    match tryBtn (c :: cs) with
    | some (tag, close, rest) => tag ++ insOf v ++ close ++ repBtnGo v fuel rest
    | none => c :: repBtnGo v fuel cs

def repBtn (v : Str) (s : Str) : Str := repBtnGo v s.length s

/-- The list of names whose inputs can donate button text. -/
def textContentNames : List Str :=
  ["label".toList, "text".toList, "caption".toList, "title".toList, "content".toList]

/-- The binding variable chosen by `healEmptyTags`. -/
def bindingVarOf (inputs : List InferredInput) : Str :=
  match inputs.find? (fun i => textContentNames.contains (lowerStr i.name)) with
  | some i => i.name
  | none => "label".toList

/-- `healEmptyTags(files, inferredInputs)` as a function of the html content
and the input list (`inferredInputs?.inputs || []`). -/
def healEmptyTags (html : Str) (inputs : List InferredInput) : Str :=
  let bindingVar := bindingVarOf inputs
  if anySuffix (fun t => (tryBtn t).isSome) html then repBtn bindingVar html
  else html

/-! Supporting lemmas for the content-healer proofs. -/

theorem lowerStr_length (s : Str) : (lowerStr s).length = s.length := by
  simp [lowerStr]

theorem ciIsPrefixOf_of_append (p : Str) :
    ∀ x y : Str, lowerStr x = lowerStr p → ciIsPrefixOf p (x ++ y) = true := by
  induction p with
  | nil =>
    intro x y h
    have := congrArg List.length h
    simp only [lowerStr_length, List.length_nil] at this
    have hx : x = [] := List.length_eq_zero.mp this
    subst hx
    rfl
  | cons p ps ih =>
    intro x y h
    cases x with
    | nil =>
      have := congrArg List.length h
      simp [lowerStr_length] at this
    | cons a as =>
      simp only [lowerStr, List.map_cons, List.cons.injEq] at h
      obtain ⟨h1, h2⟩ := h
      simp only [List.cons_append, ciIsPrefixOf, Bool.and_eq_true]
      exact ⟨by simp [h1], ih as y h2⟩

theorem ciIsPrefixOf_take (p : Str) :
    ∀ s : Str, ciIsPrefixOf p s = true →
      lowerStr (s.take p.length) = lowerStr p ∧ p.length ≤ s.length := by
  induction p with
  | nil =>
    intro s _
    simp [lowerStr]
  | cons p ps ih =>
    intro s h
    cases s with
    | nil => simp [ciIsPrefixOf] at h
    | cons c cs =>
      simp only [ciIsPrefixOf, Bool.and_eq_true, decide_eq_true_eq] at h
      obtain ⟨h1, h2⟩ := h
      have := ih cs h2
      simp only [List.length_cons, List.take_succ_cons, lowerStr, List.map_cons]
      simp only [lowerStr] at this
      exact ⟨by rw [this.1, h1], by omega⟩

theorem char_toNat_ofNat {n : Nat} (h : n < 55296) : (Char.ofNat n).toNat = n := by
  unfold Char.ofNat
  rw [dif_pos (Or.inl h)]
  show (Char.ofNatAux n _).toNat = n
  unfold Char.ofNatAux Char.toNat
  simp only []
  show (UInt32.mk (BitVec.ofNatLt n _)).toNat = n
  simp [UInt32.toNat, BitVec.toNat, BitVec.ofNatLt]

theorem toLower_cases (c : Char) :
    (65 ≤ c.toNat ∧ c.toNat ≤ 90 ∧ c.toLower.toNat = c.toNat + 32)
    ∨ (¬(65 ≤ c.toNat ∧ c.toNat ≤ 90) ∧ c.toLower = c) := by
  by_cases hc : c.toNat ≥ 65 ∧ c.toNat ≤ 90
  · left
    refine ⟨hc.1, hc.2, ?_⟩
    have h2 : c.toLower = Char.ofNat (c.toNat + 32) := by
      unfold Char.toLower
      simp only []
      rw [if_pos hc]
    rw [h2, char_toNat_ofNat (by omega)]
  · right
    refine ⟨hc, ?_⟩
    unfold Char.toLower
    simp only []
    rw [if_neg hc]

theorem char_eq_iff_toNat {c d : Char} : c = d ↔ c.toNat = d.toNat := by
  constructor
  · intro h; rw [h]
  · intro h
    exact Char.ext (UInt32.ext h)

/-- A case-mapped character equal to a non-letter codepoint is that character. -/
theorem toLower_eq_nonletter {c d : Char} (hd : d.toNat < 97 ∨ 122 < d.toNat)
    (h : c.toLower = d) : c = d := by
  rcases toLower_cases c with ⟨_, _, h3⟩ | ⟨_, h2⟩
  · exfalso
    rw [h] at h3
    omega
  · rw [← h2, h]

/-- If the lowercase image of a character is a lowercase letter, the character
itself is a letter (upper or lower). -/
theorem letter_range_of_toLower {c : Char}
    (h : 97 ≤ c.toLower.toNat ∧ c.toLower.toNat ≤ 122) :
    (65 ≤ c.toNat ∧ c.toNat ≤ 90) ∨ (97 ≤ c.toNat ∧ c.toNat ≤ 122) := by
  rcases toLower_cases c with ⟨h1, h2, h3⟩ | ⟨_, h2⟩
  · left; exact ⟨h1, h2⟩
  · right; rw [← h2]; exact h

/-! List-splitting helpers. -/

theorem split_of_le {α : Type} :
    ∀ (a c : List α) (b d : List α), a ++ b = c ++ d → a.length ≤ c.length →
      ∃ e, c = a ++ e ∧ b = e ++ d := by
  intro a
  induction a with
  | nil =>
    intro c b d h _
    exact ⟨c, rfl, h⟩
  | cons x xs ih =>
    intro c b d h hl
    cases c with
    | nil => simp at hl
    | cons y ys =>
      simp only [List.cons_append, List.cons.injEq] at h
      obtain ⟨hxy, htail⟩ := h
      simp only [List.length_cons] at hl
      obtain ⟨e, he1, he2⟩ := ih ys b d htail (by omega)
      exact ⟨e, by rw [hxy, he1]; rfl, he2⟩

theorem takeWhile_append_stop {α : Type} (p : α → Bool) :
    ∀ (A : List α) (b : α) (rest : List α), (∀ a ∈ A, p a = true) → p b = false →
      (A ++ b :: rest).takeWhile p = A := by
  intro A
  induction A with
  | nil =>
    intro b rest _ hb
    simp [List.takeWhile, hb]
  | cons x xs ih =>
    intro b rest hA hb
    have hx : p x = true := hA x (by simp)
    simp only [List.cons_append, List.takeWhile_cons, hx, if_true]
    rw [ih b rest (fun a ha => hA a (by simp [ha])) hb]

theorem drop_append_len {α : Type} (x : List α) (y : List α) :
    (x ++ y).drop x.length = y := by
  rw [List.drop_left]

theorem take_append_len {α : Type} (x : List α) (y : List α) :
    (x ++ y).take x.length = x := by
  rw [List.take_left]

theorem drop_append_len_add {α : Type} (x : List α) (b : α) (y : List α) :
    (x ++ b :: y).drop (x.length + 1) = y := by
  have h : x ++ b :: y = (x ++ [b]) ++ y := by simp
  rw [h]
  have h2 : x.length + 1 = (x ++ [b]).length := by simp
  rw [h2, drop_append_len]

theorem take_append_len_add {α : Type} (x : List α) (b : α) (y : List α) :
    (x ++ b :: y).take (x.length + 1) = x ++ [b] := by
  have h : x ++ b :: y = (x ++ [b]) ++ y := by simp
  rw [h]
  have h2 : x.length + 1 = (x ++ [b]).length := by simp
  rw [h2, take_append_len]

theorem dropWhile_head_false {α : Type} (p : α → Bool) :
    ∀ (l : List α) (c : α) (cs : List α), l.dropWhile p = c :: cs → p c = false := by
  intro l
  induction l with
  | nil => intro c cs h; simp [List.dropWhile] at h
  | cons x xs ih =>
    intro c cs h
    simp only [List.dropWhile] at h
    cases hx : p x with
    | true => rw [hx] at h; exact ih c cs h
    | false =>
      rw [hx] at h
      simp only [List.cons.injEq] at h
      rw [← h.1]
      exact hx

theorem mem_takeWhile_sat {α : Type} (p : α → Bool) :
    ∀ (l : List α), ∀ x ∈ l.takeWhile p, p x = true := by
  intro l
  induction l with
  | nil => intro x hx; simp [List.takeWhile] at hx
  | cons a as ih =>
    intro x hx
    simp only [List.takeWhile] at hx
    cases ha : p a with
    | false => rw [ha] at hx; simp at hx
    | true =>
      rw [ha] at hx
      simp only [List.mem_cons] at hx
      rcases hx with rfl | hx
      · exact ha
      · exact ih x hx

theorem takeWhile_append_dw {α : Type} (p : α → Bool) (l : List α) :
    l = l.takeWhile p ++ l.dropWhile p := (List.takeWhile_append_dropWhile p l).symm

/-- The shape of a matched opening tag: a case-variant of `<button`, then
non-`>` characters, then `>`. -/
def TagStruct (t : Str) : Prop :=
  ∃ b7 A, t = b7 ++ A ++ ['>'] ∧ lowerStr b7 = lowerStr ("<button".toList)
    ∧ ∀ x ∈ A, x ≠ '>'

def AllWs (w : Str) : Prop := ∀ x ∈ w, isWsChar x = true

theorem tryBtn_sound {s t c9 r : Str} (h : tryBtn s = some (t, c9, r)) :
    ∃ w, s = t ++ w ++ c9 ++ r ∧ TagStruct t ∧ AllWs w
      ∧ lowerStr c9 = lowerStr ("</button>".toList) := by
  unfold tryBtn at h
  by_cases h1 : ciIsPrefixOf ("<button".toList) s = true
  case neg => rw [if_neg h1] at h; exact absurd h (by simp)
  rw [if_pos h1] at h
  simp only [] at h
  by_cases h2 : ((s.drop 7).takeWhile (fun c => c ≠ '>')).length < (s.drop 7).length
  case neg => rw [if_neg h2] at h; exact absurd h (by simp)
  rw [if_pos h2] at h
  by_cases h3 : ciIsPrefixOf ("</button>".toList)
      (((s.drop 7).drop (((s.drop 7).takeWhile (fun c => c ≠ '>')).length + 1)).drop
        ((((s.drop 7).drop (((s.drop 7).takeWhile (fun c => c ≠ '>')).length + 1)).takeWhile
          isWsChar).length)) = true
  case neg => rw [if_neg h3] at h; exact absurd h (by simp)
  rw [if_pos h3] at h
  simp only [Option.some.injEq, Prod.mk.injEq] at h
  obtain ⟨ht, hc9, hr⟩ := h
  -- names for the pieces
  have hb7 := ciIsPrefixOf_take ("<button".toList) s h1
  rw [show ("<button".toList).length = 7 by decide] at hb7
  set b7 := s.take 7 with hb7def
  set s1 := s.drop 7 with hs1
  set A := s1.takeWhile (fun c => c ≠ '>') with hA
  -- s1 = A ++ dropWhile, and the dropWhile is '>'-headed
  have hsplit1 : s1 = A ++ s1.dropWhile (fun c => c ≠ '>') := takeWhile_append_dw _ s1
  have hdwne : s1.dropWhile (fun c => c ≠ '>') ≠ [] := by
    intro hnil
    rw [hnil, List.append_nil] at hsplit1
    rw [← hsplit1] at h2
    omega
  obtain ⟨gt, tl, hgt⟩ : ∃ gt tl, s1.dropWhile (fun c => c ≠ '>') = gt :: tl := by
    cases hdw : s1.dropWhile (fun c => c ≠ '>') with
    | nil => exact absurd hdw hdwne
    | cons g t2 => exact ⟨g, t2, rfl⟩
  have hgtval : gt = '>' := by
    have := dropWhile_head_false (fun c => c ≠ '>') s1 gt tl hgt
    simpa using this
  subst hgtval
  rw [hgt] at hsplit1
  -- s2 = tl
  have hs2 : s1.drop (A.length + 1) = tl := by
    rw [hsplit1, drop_append_len_add]
  rw [hs2] at h3 hc9 hr
  -- w and s3
  set w := tl.takeWhile isWsChar with hw
  have hsplit2 : tl = w ++ tl.dropWhile isWsChar := takeWhile_append_dw _ tl
  have hs3 : tl.drop w.length = tl.dropWhile isWsChar := by
    conv_lhs => rw [hsplit2]
    rw [drop_append_len]
  rw [hs3] at h3 hc9 hr
  set s3 := tl.dropWhile isWsChar with hs3d
  have hc9l := ciIsPrefixOf_take ("</button>".toList) s3 h3
  rw [show ("</button>".toList).length = 9 by decide] at hc9l
  have hsplit3 : s3 = s3.take 9 ++ s3.drop 9 := (List.take_append_drop 9 s3).symm
  -- assemble s
  have hslen : b7.length = 7 := by
    have := congrArg List.length hb7.1
    simp only [lowerStr_length] at this
    rw [hb7def]
    simp only [List.length_take]
    omega
  have hsfull : s = b7 ++ s1 := by
    rw [hb7def, hs1]
    exact (List.take_append_drop 7 s).symm
  have htag : t = b7 ++ A ++ ['>'] := by
    rw [← ht, hsfull, hsplit1]
    have h7 : (7 : Nat) + A.length + 1 = b7.length + (A.length + 1) := by omega
    rw [h7]
    rw [List.take_append]
    rw [take_append_len_add A '>' tl, List.append_assoc]
  refine ⟨w, ?_, ⟨b7, A, htag, hb7.1, ?_⟩, ?_, ?_⟩
  · rw [hsfull, hsplit1, htag, ← hc9, ← hr, hsplit2]
    conv_rhs => rw [hsplit3]
    simp
  · intro x hx
    have := mem_takeWhile_sat (fun c => c ≠ '>') s1 x (hA ▸ hx)
    simpa using this
  · intro x hx
    exact mem_takeWhile_sat isWsChar tl x (hw ▸ hx)
  · rw [← hc9]
    exact hc9l.1

theorem tryBtn_complete (b7 A w c9 r : Str)
    (hb : lowerStr b7 = lowerStr ("<button".toList))
    (hA : ∀ x ∈ A, x ≠ '>')
    (hw : AllWs w)
    (hc : lowerStr c9 = lowerStr ("</button>".toList)) :
    tryBtn (b7 ++ A ++ '>' :: (w ++ (c9 ++ r))) = some (b7 ++ A ++ ['>'], c9, r) := by
  have hbl : b7.length = 7 := by
    have h := congrArg List.length hb
    simp only [lowerStr_length] at h
    rw [h]; decide
  have hcl : c9.length = 9 := by
    have h := congrArg List.length hc
    simp only [lowerStr_length] at h
    rw [h]; decide
  obtain ⟨d, c9t, hc9d⟩ : ∃ d c9t, c9 = d :: c9t := by
    cases c9 with
    | nil => simp at hcl
    | cons d t2 => exact ⟨d, t2, rfl⟩
  have hdlow : d.toLower = '<' := by
    have h := hc
    rw [hc9d, show lowerStr ("</button>".toList) = '<' :: ("/button>".toList) by decide] at h
    simp only [lowerStr, List.map, List.cons.injEq] at h
    exact h.1
  have hdlt : d = '<' := toLower_eq_nonletter (Or.inl (by decide)) hdlow
  have h1 : ciIsPrefixOf ("<button".toList) (b7 ++ A ++ '>' :: (w ++ (c9 ++ r))) = true := by
    have he : b7 ++ A ++ '>' :: (w ++ (c9 ++ r)) = b7 ++ (A ++ '>' :: (w ++ (c9 ++ r))) := by
      simp
    rw [he]
    exact ciIsPrefixOf_of_append _ b7 _ hb
  unfold tryBtn
  rw [if_pos h1]
  simp only []
  have hd7 : (b7 ++ A ++ '>' :: (w ++ (c9 ++ r))).drop 7 = A ++ '>' :: (w ++ (c9 ++ r)) := by
    have he : b7 ++ A ++ '>' :: (w ++ (c9 ++ r)) = b7 ++ (A ++ '>' :: (w ++ (c9 ++ r))) := by
      simp
    rw [he, ← hbl, drop_append_len]
  rw [hd7]
  have htw : (A ++ '>' :: (w ++ (c9 ++ r))).takeWhile (fun c => c ≠ '>') = A := by
    apply takeWhile_append_stop
    · intro a ha; simpa using hA a ha
    · simp
  rw [htw]
  have hlt : A.length < (A ++ '>' :: (w ++ (c9 ++ r))).length := by
    simp only [List.length_append, List.length_cons]
    omega
  rw [if_pos hlt]
  have htake : (b7 ++ A ++ '>' :: (w ++ (c9 ++ r))).take (7 + A.length + 1) = b7 ++ A ++ ['>'] := by
    have he : b7 ++ A ++ '>' :: (w ++ (c9 ++ r)) = b7 ++ (A ++ '>' :: (w ++ (c9 ++ r))) := by
      simp
    rw [he, show 7 + A.length + 1 = b7.length + (A.length + 1) by omega, List.take_append,
      take_append_len_add, ← List.append_assoc]
  rw [htake]
  have hs2 : (A ++ '>' :: (w ++ (c9 ++ r))).drop (A.length + 1) = w ++ (c9 ++ r) :=
    drop_append_len_add A '>' _
  rw [hs2]
  have harr : w ++ (c9 ++ r) = w ++ '<' :: (c9t ++ r) := by
    rw [hc9d, hdlt]; simp
  have htw2 : (w ++ (c9 ++ r)).takeWhile isWsChar = w := by
    rw [harr]; exact takeWhile_append_stop _ w '<' _ hw (by decide)
  rw [htw2, drop_append_len]
  have h3 : ciIsPrefixOf ("</button>".toList) (c9 ++ r) = true :=
    ciIsPrefixOf_of_append _ c9 r hc
  rw [if_pos h3, show (9 : Nat) = c9.length from hcl.symm, take_append_len, drop_append_len]

theorem tryBtn_rest_le {c : Char} {cs t c9 r : Str} (h : tryBtn (c :: cs) = some (t, c9, r)) :
    r.length ≤ cs.length := by
  obtain ⟨w, hS, htag, _, _⟩ := tryBtn_sound h
  obtain ⟨b7, A, ht, _, _⟩ := htag
  have hlen := congrArg List.length hS
  rw [ht] at hlen
  simp only [List.length_cons, List.length_append, List.length_singleton] at hlen
  omega

theorem repBtnGo_fuel (v : Str) :
    ∀ f₁ f₂ s, s.length ≤ f₁ → s.length ≤ f₂ → repBtnGo v f₁ s = repBtnGo v f₂ s := by
  intro f₁
  induction f₁ with
  | zero =>
    intro f₂ s h1 _
    have hs : s = [] := List.eq_nil_of_length_eq_zero (Nat.le_zero.mp h1)
    subst hs
    cases f₂ <;> rfl
  | succ f ih =>
    intro f₂ s h1 h2
    cases s with
    | nil => cases f₂ <;> rfl
    | cons c cs =>
      cases f₂ with
      | zero => simp at h2
      | succ f₂' =>
        simp only [repBtnGo]
        cases htb : tryBtn (c :: cs) with
        | none =>
          rw [ih f₂' cs (by simpa using h1) (by simpa using h2)]
        | some trip =>
          obtain ⟨t, c9, r⟩ := trip
          have hr := tryBtn_rest_le htb
          show t ++ insOf v ++ c9 ++ repBtnGo v f r = t ++ insOf v ++ c9 ++ repBtnGo v f₂' r
          rw [ih f₂' r (le_trans hr (by simpa using h1)) (le_trans hr (by simpa using h2))]

theorem repBtn_nil (v : Str) : repBtn v [] = [] := rfl

theorem repBtn_cons_none {c : Char} {cs : Str} (v : Str) (h : tryBtn (c :: cs) = none) :
    repBtn v (c :: cs) = c :: repBtn v cs := by
  show repBtnGo v (cs.length + 1) (c :: cs) = c :: repBtnGo v cs.length cs
  simp only [repBtnGo, h]

theorem repBtn_cons_some {c : Char} {cs t c9 r : Str} (v : Str)
    (h : tryBtn (c :: cs) = some (t, c9, r)) :
    repBtn v (c :: cs) = t ++ insOf v ++ c9 ++ repBtn v r := by
  show repBtnGo v (cs.length + 1) (c :: cs) = t ++ insOf v ++ c9 ++ repBtnGo v r.length r
  simp only [repBtnGo, h]
  rw [repBtnGo_fuel v cs.length r.length r (tryBtn_rest_le h) le_rfl]

theorem tryBtn_none_head {c : Char} (e : Str) (h : c.toLower ≠ '<') : tryBtn (c :: e) = none := by
  have hp : ciIsPrefixOf ("<button".toList) (c :: e) = false := by
    rw [show ("<button".toList) = '<' :: ("button".toList) from rfl]
    by_cases hcc : '<' = c.toLower
    · exact absurd hcc.symm h
    · simp [ciIsPrefixOf, hcc]
  unfold tryBtn
  rw [hp]
  simp

theorem tryBtn_none_head2 {c₀ c₁ : Char} (e : Str) (h : c₁.toLower ≠ 'b') :
    tryBtn (c₀ :: c₁ :: e) = none := by
  have hp : ciIsPrefixOf ("<button".toList) (c₀ :: c₁ :: e) = false := by
    rw [show ("<button".toList) = '<' :: 'b' :: ("utton".toList) from rfl]
    by_cases hcc : 'b' = c₁.toLower
    · exact absurd hcc.symm h
    · simp [ciIsPrefixOf, hcc]
  unfold tryBtn
  rw [hp]
  simp

theorem tryBtn_none_after_gt (d e : Str) (hd : ∀ x ∈ d, x ≠ '>') :
    tryBtn (d ++ '>' :: '{' :: e) = none := by
  by_cases hp : ciIsPrefixOf ("<button".toList) (d ++ '>' :: '{' :: e) = true
  case neg =>
    unfold tryBtn
    rw [if_neg hp]
  case pos =>
    have htk := ciIsPrefixOf_take ("<button".toList) _ hp
    rw [show ("<button".toList).length = 7 by decide] at htk
    have hd7 : 7 ≤ d.length := by
      by_contra hlt
      push_neg at hlt
      have hmem : '>' ∈ (d ++ '>' :: '{' :: e).take 7 := by
        rw [List.take_append_eq_append_take]
        apply List.mem_append_right
        rw [show 7 - d.length = (7 - d.length - 1) + 1 by omega, List.take_succ_cons]
        exact List.mem_cons_self _ _
      have hmem2 : '>'.toLower ∈ lowerStr ((d ++ '>' :: '{' :: e).take 7) :=
        List.mem_map_of_mem _ hmem
      rw [htk.1] at hmem2
      revert hmem2
      decide
    unfold tryBtn
    rw [if_pos hp]
    simp only []
    have hdr : (d ++ '>' :: '{' :: e).drop 7 = d.drop 7 ++ '>' :: '{' :: e := by
      rw [List.drop_append_eq_append_drop, show 7 - d.length = 0 by omega, List.drop_zero]
    rw [hdr]
    have htw : (d.drop 7 ++ '>' :: '{' :: e).takeWhile (fun c => c ≠ '>') = d.drop 7 := by
      apply takeWhile_append_stop
      · intro a ha
        simpa using hd a (List.mem_of_mem_drop ha)
      · simp
    rw [htw]
    have hlt : (d.drop 7).length < (d.drop 7 ++ '>' :: '{' :: e).length := by
      simp only [List.length_append, List.length_cons]
      omega
    rw [if_pos hlt]
    have hs2 : (d.drop 7 ++ '>' :: '{' :: e).drop ((d.drop 7).length + 1) = '{' :: e :=
      drop_append_len_add _ '>' _
    rw [hs2]
    have htw2 : ('{' :: e).takeWhile isWsChar = [] := by
      rw [List.takeWhile_cons]
      simp [isWsChar]
    rw [htw2]
    simp only [List.length_nil, List.drop_zero]
    have hp2 : ciIsPrefixOf ("</button>".toList) ('{' :: e) = false := by
      rw [show ("</button>".toList) = '<' :: ("/button>".toList) from rfl]
      simp [ciIsPrefixOf, show ¬('<'.toLower = '{'.toLower) by decide]
    rw [hp2]
    simp

theorem mem_of_suffix {α : Type} {u w : List α} (h : u <:+ w) {x : α} (hx : x ∈ u) : x ∈ w := by
  obtain ⟨p, hp⟩ := h
  rw [← hp]
  exact List.mem_append_right p hx

theorem suffix_cons_cases {α : Type} {u : List α} {a : α} {w : List α} (h : u <:+ a :: w) :
    u = a :: w ∨ u <:+ w := by
  obtain ⟨p, hp⟩ := h
  cases p with
  | nil => left; simpa using hp
  | cons b bs =>
    right
    rw [List.cons_append] at hp
    simp only [List.cons.injEq] at hp
    exact ⟨bs, hp.2⟩

theorem suffix_append_cases {α : Type} (a b x : List α) (h : x <:+ a ++ b) :
    x <:+ b ∨ ∃ y, y <:+ a ∧ y ≠ [] ∧ x = y ++ b := by
  obtain ⟨p, hp⟩ := h
  by_cases hl : a.length ≤ p.length
  · left
    obtain ⟨e, _, he2⟩ := split_of_le a p b x hp.symm hl
    exact ⟨e, he2.symm⟩
  · push_neg at hl
    obtain ⟨e, he1, he2⟩ := split_of_le p a x b hp (by omega)
    right
    refine ⟨e, ⟨p, he1.symm⟩, ?_, he2⟩
    intro hnil
    rw [hnil, List.append_nil] at he1
    have := congrArg List.length he1
    omega

theorem anySuffix_append_false (f : Str → Bool) :
    ∀ x z : Str, (∀ u, u <:+ x → u ≠ [] → f (u ++ z) = false) →
      anySuffix f z = false → anySuffix f (x ++ z) = false := by
  intro x
  induction x with
  | nil => intro z _ h2; simpa using h2
  | cons c x' ih =>
    intro z h1 h2
    simp only [List.cons_append, anySuffix]
    rw [Bool.or_eq_false_iff]
    constructor
    · simpa using h1 (c :: x') (List.suffix_refl _) (by simp)
    · exact ih z (fun u hu hne => h1 u (hu.trans (List.suffix_cons c x')) hne) h2

/-- The binding variable is made of letters: every character case-folds into
the lowercase-letter range. -/
def goodVar (v : Str) : Prop := ∀ c ∈ v, 97 ≤ c.toLower.toNat ∧ c.toLower.toNat ≤ 122

theorem bindingVarOf_good (inputs : List InferredInput) : goodVar (bindingVarOf inputs) := by
  unfold bindingVarOf
  cases hf : inputs.find? (fun i => textContentNames.contains (lowerStr i.name)) with
  | none =>
    intro c hc
    have hall : ∀ x ∈ ("label".toList), 97 ≤ x.toLower.toNat ∧ x.toLower.toNat ≤ 122 := by
      decide
    exact hall c hc
  | some i =>
    have hp := List.find?_some hf
    simp only [] at hp
    have hmem : lowerStr i.name ∈ textContentNames := by
      simpa [List.contains] using hp
    intro c hc
    have hcl : c.toLower ∈ lowerStr i.name := List.mem_map_of_mem _ hc
    have hall : ∀ s ∈ textContentNames, ∀ x ∈ s, 97 ≤ x.toNat ∧ x.toNat ≤ 122 := by decide
    exact hall _ hmem _ hcl

theorem insOf_eq (v : Str) : insOf v = '{' :: '{' :: ' ' :: (v ++ [' ', '}', '}']) := rfl

theorem insOf_toLower_ne_lt {v : Str} (hv : goodVar v) {c : Char} (hc : c ∈ insOf v) :
    c.toLower ≠ '<' := by
  rw [insOf_eq] at hc
  simp only [List.mem_cons, List.mem_append, List.not_mem_nil, or_false] at hc
  rcases hc with rfl | rfl | rfl | hcv | rfl | rfl | rfl
  · decide
  · decide
  · decide
  · have := hv c hcv
    intro he
    rw [he] at this
    revert this
    decide
  · decide
  · decide
  · decide

theorem tryBtn_none_suffix_close {c9 : Str} (hc : lowerStr c9 = lowerStr ("</button>".toList))
    {x : Str} (hx : x <:+ c9) (hne : x ≠ []) (E : Str) : tryBtn (x ++ E) = none := by
  have hlow : lowerStr c9 = "</button>".toList := by rw [hc]; decide
  have hxl : lowerStr x <:+ ("</button>".toList) := by
    rw [← hlow]
    exact List.IsSuffix.map _ hx
  obtain ⟨c₀, xt, hx0⟩ : ∃ c₀ xt, x = c₀ :: xt := by
    cases x with
    | nil => exact absurd rfl hne
    | cons a b => exact ⟨a, b, rfl⟩
  rw [show ("</button>".toList) = '<' :: ("/button>".toList) from rfl] at hxl
  rcases suffix_cons_cases hxl with hfull | htail
  · rw [hx0] at hfull
    simp only [lowerStr, List.map, List.cons.injEq] at hfull
    obtain ⟨h0, h1⟩ := hfull
    obtain ⟨c₁, xt', hx1⟩ : ∃ c₁ xt', xt = c₁ :: xt' := by
      cases xt with
      | nil => exact absurd (congrArg List.length h1) (by decide)
      | cons a b => exact ⟨a, b, rfl⟩
    have hc1 : c₁.toLower = '/' := by
      rw [hx1, show ("/button>".toList) = '/' :: ("button>".toList) from rfl] at h1
      simp only [List.map, List.cons.injEq] at h1
      exact h1.1
    rw [hx0, hx1]
    apply tryBtn_none_head2
    rw [hc1]
    decide
  · rw [hx0] at htail ⊢
    have hmem : c₀.toLower ∈ ("/button>".toList) := by
      apply mem_of_suffix htail
      simp [lowerStr]
    apply tryBtn_none_head
    intro he
    rw [he] at hmem
    revert hmem
    decide

theorem tryBtn_none_suffix_tag {t : Str} (htag : TagStruct t) {x : Str} (hx : x <:+ t)
    (hne : x ≠ []) (E : Str) : tryBtn (x ++ '{' :: E) = none := by
  obtain ⟨b7, A, ht, hb, hA⟩ := htag
  rw [ht] at hx
  rcases suffix_append_cases (b7 ++ A) ['>'] x hx with hsuf | ⟨y, hys, hyne, hxy⟩
  · rcases suffix_cons_cases hsuf with h1 | h2
    · rw [h1]
      exact tryBtn_none_after_gt [] E (by simp)
    · exact absurd (List.suffix_nil.mp h2) hne
  · rw [hxy]
    have harr : y ++ ['>'] ++ '{' :: E = y ++ '>' :: '{' :: E := by simp
    rw [harr]
    apply tryBtn_none_after_gt
    intro z hz
    rcases List.mem_append.mp (mem_of_suffix hys hz) with hzb | hzA
    · intro he
      rw [he] at hzb
      have hmm : '>'.toLower ∈ lowerStr b7 := List.mem_map_of_mem _ hzb
      rw [hb] at hmm
      revert hmm
      decide
    · exact hA z hzA

theorem close_head {c9 : Str} (hc : lowerStr c9 = lowerStr ("</button>".toList)) :
    ∃ d ds, c9 = d :: ds ∧ d.toLower = '<' := by
  obtain ⟨d, ds, hd⟩ : ∃ d ds, c9 = d :: ds := by
    cases c9 with
    | nil => exact absurd (congrArg List.length hc) (by decide)
    | cons a b => exact ⟨a, b, rfl⟩
  refine ⟨d, ds, hd, ?_⟩
  rw [hd, show lowerStr ("</button>".toList) = '<' :: ("/button>".toList) by decide] at hc
  simp only [lowerStr, List.map, List.cons.injEq] at hc
  exact hc.1

theorem close_no_brace {c9 : Str} (hc : lowerStr c9 = lowerStr ("</button>".toList))
    (h : '{' ∈ c9) : False := by
  have h2 : '{'.toLower ∈ lowerStr c9 := List.mem_map_of_mem _ h
  rw [hc] at h2
  revert h2
  decide

theorem tag_body_no_gt {b7 A : Str} (hb : lowerStr b7 = lowerStr ("<button".toList))
    (hA : ∀ x ∈ A, x ≠ '>') : ∀ x ∈ b7 ++ A, x ≠ '>' := by
  intro x hx
  rcases List.mem_append.mp hx with h1 | h2
  · intro he
    rw [he] at h1
    have h3 : '>'.toLower ∈ lowerStr b7 := List.mem_map_of_mem _ h1
    rw [hb] at h3
    revert h3
    decide
  · exact hA x h2

/-- Replacing the tail after a matched opening tag by injected content starting
with a brace never creates a match at an earlier position: if the scan failed
at this position on the original `q ++ t ++ Y`, it also fails on the rewritten
`q ++ t ++ '\x7b' :: E`. -/
theorem no_new_match {q t Y : Str} (htag : TagStruct t)
    (hnone : tryBtn (q ++ (t ++ Y)) = none) (E : Str) :
    tryBtn (q ++ (t ++ '{' :: E)) = none := by
  cases hO : tryBtn (q ++ (t ++ '{' :: E)) with
  | none => rfl
  | some trip =>
    exfalso
    obtain ⟨t', c9', r'⟩ := trip
    obtain ⟨w', hSout, htag', hws', hc9'⟩ := tryBtn_sound hO
    obtain ⟨b7, A, htE, hbE, hAE⟩ := htag
    obtain ⟨b7', A', ht'E, hb'E, hA'E⟩ := htag'
    have hO1 : (q ++ b7 ++ A) ++ '>' :: '{' :: E = (b7' ++ A') ++ '>' :: (w' ++ (c9' ++ r')) := by
      have h1 : (q ++ b7 ++ A) ++ '>' :: '{' :: E = q ++ (t ++ '{' :: E) := by
        rw [htE]; simp
      have h2 : ((t' ++ w') ++ c9') ++ r' = (b7' ++ A') ++ '>' :: (w' ++ (c9' ++ r')) := by
        rw [ht'E]; simp
      rw [h1, hSout]
      exact h2
    rcases Nat.lt_trichotomy ((b7' ++ A').length) ((q ++ b7 ++ A).length) with hlt | heq | hgt
    · -- the new match ends strictly before the injected brace: it was already
      -- present in the original string, contradiction with the failed scan
      have hlen : t'.length ≤ (q ++ b7 ++ A).length := by
        have h5 := congrArg List.length ht'E
        simp only [List.length_append, List.length_cons, List.length_singleton,
          List.length_nil] at h5 hlt
        simp only [List.length_append]
        omega
      have hO2 : t' ++ (w' ++ (c9' ++ r')) = (q ++ b7 ++ A) ++ '>' :: '{' :: E := by
        have h3 : t' ++ (w' ++ (c9' ++ r')) = (b7' ++ A') ++ '>' :: (w' ++ (c9' ++ r')) := by
          rw [ht'E]; simp
        rw [h3]
        exact hO1.symm
      obtain ⟨e₁, hqt, he₁⟩ := split_of_le t' (q ++ b7 ++ A) (w' ++ (c9' ++ r')) ('>' :: '{' :: E) hO2 hlen
      by_cases hw1 : e₁.length ≤ w'.length
      · obtain ⟨e₂, hw2, he₂⟩ := split_of_le e₁ w' ('>' :: '{' :: E) (c9' ++ r') he₁.symm hw1
        cases e₂ with
        | nil =>
          rw [List.nil_append] at he₂
          obtain ⟨d, ds, hd, hdl⟩ := close_head hc9'
          rw [hd, List.cons_append] at he₂
          simp only [List.cons.injEq] at he₂
          rw [← he₂.1] at hdl
          revert hdl
          decide
        | cons x xs =>
          rw [List.cons_append] at he₂
          simp only [List.cons.injEq] at he₂
          have hgtw : '>' ∈ w' := by
            rw [hw2, he₂.1]
            exact List.mem_append_right _ (List.mem_cons_self _ _)
          have := hws' '>' hgtw
          revert this
          decide
      · push_neg at hw1
        obtain ⟨e₃, he₁3, he₃⟩ := split_of_le w' e₁ (c9' ++ r') ('>' :: '{' :: E) he₁ (le_of_lt hw1)
        by_cases hc1 : c9'.length ≤ e₃.length
        · obtain ⟨e₄, he₃4, hr'⟩ := split_of_le c9' e₃ r' ('>' :: '{' :: E) he₃ hc1
          have horig : q ++ (t ++ Y) = b7' ++ A' ++ '>' :: (w' ++ (c9' ++ (e₄ ++ '>' :: Y))) := by
            have h4 : q ++ (t ++ Y) = (q ++ b7 ++ A) ++ '>' :: Y := by
              rw [htE]; simp
            rw [h4, hqt, he₁3, he₃4, ht'E]
            simp
          rw [horig, tryBtn_complete b7' A' w' c9' (e₄ ++ '>' :: Y) hb'E hA'E hws' hc9'] at hnone
          exact absurd hnone (by simp)
        · push_neg at hc1
          obtain ⟨e₅, hc95, he₅⟩ := split_of_le e₃ c9' ('>' :: '{' :: E) r' he₃.symm (le_of_lt hc1)
          cases e₅ with
          | nil =>
            have := congrArg List.length hc95
            simp only [List.append_nil] at this
            omega
          | cons x xs =>
            rw [List.cons_append] at he₅
            simp only [List.cons.injEq] at he₅
            cases xs with
            | nil =>
              have horig : q ++ (t ++ Y) = b7' ++ A' ++ '>' :: (w' ++ (c9' ++ Y)) := by
                have h4 : q ++ (t ++ Y) = (q ++ b7 ++ A) ++ '>' :: Y := by
                  rw [htE]; simp
                rw [h4, hqt, he₁3, hc95, ← he₅.1, ht'E]
                simp
              rw [horig, tryBtn_complete b7' A' w' c9' Y hb'E hA'E hws' hc9'] at hnone
              exact absurd hnone (by simp)
            | cons y ys =>
              have hy : y = '{' := by
                have h6 := he₅.2
                rw [List.cons_append] at h6
                simp only [List.cons.injEq] at h6
                exact h6.1.symm
              apply close_no_brace hc9'
              rw [hc95, ← he₅.1, hy]
              simp
    · -- the new match's tag ends exactly at the original tag's closing bracket:
      -- what follows is the injected brace, neither whitespace nor a close tag
      obtain ⟨hpre, hsuf⟩ := List.append_inj hO1.symm heq
      simp only [List.cons.injEq, true_and] at hsuf
      cases w' with
      | nil =>
        rw [List.nil_append] at hsuf
        obtain ⟨d, ds, hd, hdl⟩ := close_head hc9'
        rw [hd, List.cons_append] at hsuf
        simp only [List.cons.injEq] at hsuf
        rw [hsuf.1] at hdl
        revert hdl
        decide
      | cons a as =>
        rw [List.cons_append] at hsuf
        simp only [List.cons.injEq] at hsuf
        have := hws' a (List.mem_cons_self _ _)
        rw [hsuf.1] at this
        revert this
        decide
    · -- the new match's tag would swallow the original closing bracket inside
      -- its attribute region, which contains no bracket
      obtain ⟨e, he1, he2⟩ := split_of_le (q ++ b7 ++ A) (b7' ++ A') ('>' :: '{' :: E)
        ('>' :: (w' ++ (c9' ++ r'))) hO1 (le_of_lt hgt)
      cases e with
      | nil =>
        rw [List.append_nil] at he1
        have := congrArg List.length he1
        omega
      | cons x xs =>
        rw [List.cons_append] at he2
        simp only [List.cons.injEq] at he2
        have hgtmem : '>' ∈ b7' ++ A' := by
          rw [he1, he2.1]
          exact List.mem_append_right _ (List.mem_cons_self _ _)
        exact tag_body_no_gt hb'E hA'E '>' hgtmem rfl

/-- The output of the global scan decomposes as either an unchanged match-free
string, or a scanned-over prefix, the first replaced match, and a recursively
rewritten remainder. -/
theorem repBtn_structure (v : Str) :
    ∀ s : Str,
      (repBtn v s = s ∧ anySuffix (fun u => (tryBtn u).isSome) s = false)
      ∨ ∃ p t w c9 r,
          s = p ++ (t ++ (w ++ (c9 ++ r)))
          ∧ tryBtn (t ++ (w ++ (c9 ++ r))) = some (t, c9, r)
          ∧ TagStruct t ∧ AllWs w ∧ lowerStr c9 = lowerStr ("</button>".toList)
          ∧ (∀ x, x <:+ p → x ≠ [] → tryBtn (x ++ (t ++ (w ++ (c9 ++ r)))) = none)
          ∧ repBtn v s = p ++ (t ++ (insOf v ++ (c9 ++ repBtn v r))) := by
  intro s
  induction s with
  | nil => exact Or.inl ⟨rfl, rfl⟩
  | cons c cs ih =>
    cases htb : tryBtn (c :: cs) with
    | some trip =>
      obtain ⟨t, c9, r⟩ := trip
      right
      obtain ⟨w, hS, htag, hws, hc9⟩ := tryBtn_sound htb
      have hS' : c :: cs = t ++ (w ++ (c9 ++ r)) := by
        rw [hS]; simp
      refine ⟨[], t, w, c9, r, ?_, ?_, htag, hws, hc9, ?_, ?_⟩
      · rw [← hS']; rfl
      · rw [← hS']; exact htb
      · intro x hx hne; exact absurd (List.suffix_nil.mp hx) hne
      · rw [repBtn_cons_some v htb]; simp
    | none =>
      rcases ih with ⟨he, hnm⟩ | ⟨p, t, w, c9, r, hseq, hm, htag, hws, hc9, hq, hout⟩
      · left
        refine ⟨?_, ?_⟩
        · rw [repBtn_cons_none v htb, he]
        · simp only [anySuffix]
          rw [Bool.or_eq_false_iff]
          exact ⟨by simp [htb], hnm⟩
      · right
        refine ⟨c :: p, t, w, c9, r, ?_, hm, htag, hws, hc9, ?_, ?_⟩
        · rw [List.cons_append, ← hseq]
        · intro x hx hne
          rcases suffix_cons_cases hx with h1 | h2
          · rw [h1, List.cons_append, ← hseq]
            exact htb
          · exact hq x h2 hne
        · rw [repBtn_cons_none v htb, hout, List.cons_append]

/-- After the global replace of empty buttons, no suffix of the result matches
the empty-button pattern any more. -/
theorem noBtn_repBtn (v : Str) (hv : goodVar v) :
    ∀ n s, s.length ≤ n → anySuffix (fun u => (tryBtn u).isSome) (repBtn v s) = false := by
  intro n
  induction n with
  | zero =>
    intro s hs
    have hnil : s = [] := List.eq_nil_of_length_eq_zero (Nat.le_zero.mp hs)
    subst hnil
    rfl
  | succ m ih =>
    intro s hs
    rcases repBtn_structure v s with ⟨he, hnm⟩ | ⟨p, t, w, c9, r, hseq, _, htag, _, hc9, hq, hout⟩
    · rw [he]; exact hnm
    · rw [hout]
      have htlen : 1 ≤ t.length := by
        obtain ⟨b7, A, ht, _, _⟩ := htag
        rw [ht]
        simp only [List.length_append, List.length_cons, List.length_nil]
        omega
      have hrlen : r.length ≤ m := by
        have hL := congrArg List.length hseq
        simp only [List.length_append] at hL
        omega
      have hZ := ih r hrlen
      apply anySuffix_append_false
      · intro u hu hne
        have hn := hq u hu hne
        show (tryBtn (u ++ (t ++ (insOf v ++ (c9 ++ repBtn v r))))).isSome = false
        have harr : t ++ (insOf v ++ (c9 ++ repBtn v r))
            = t ++ '{' :: (('{' :: ' ' :: (v ++ [' ', '}', '}'])) ++ (c9 ++ repBtn v r)) := by
          rw [insOf_eq]; simp
        rw [harr, no_new_match htag hn _]
        rfl
      apply anySuffix_append_false
      · intro u hu hne
        show (tryBtn (u ++ (insOf v ++ (c9 ++ repBtn v r)))).isSome = false
        have harr : u ++ (insOf v ++ (c9 ++ repBtn v r))
            = u ++ '{' :: (('{' :: ' ' :: (v ++ [' ', '}', '}'])) ++ (c9 ++ repBtn v r)) := by
          rw [insOf_eq]; simp
        rw [harr, tryBtn_none_suffix_tag htag hu hne _]
        rfl
      apply anySuffix_append_false
      · intro u hu hne
        show (tryBtn (u ++ (c9 ++ repBtn v r))).isSome = false
        obtain ⟨c₀, ut, hu0⟩ : ∃ c₀ ut, u = c₀ :: ut := by
          cases u with
          | nil => exact absurd rfl hne
          | cons a b => exact ⟨a, b, rfl⟩
        have hc0 : c₀ ∈ insOf v := mem_of_suffix hu (by rw [hu0]; exact List.mem_cons_self _ _)
        rw [hu0, List.cons_append, tryBtn_none_head _ (insOf_toLower_ne_lt hv hc0)]
        rfl
      apply anySuffix_append_false
      · intro u hu hne
        show (tryBtn (u ++ repBtn v r)).isSome = false
        rw [tryBtn_none_suffix_close hc9 hu hne _]
        rfl
      exact hZ

/-- C8: content healing (`healEmptyTags`) is idempotent — for every markup
string and inferred-input list, applying it twice gives the same result as
applying it once; and the markup `<button class="btn"></button>` with inferred
inputs naming only `label` heals to `<button class="btn">\x7b\x7b label \x7d\x7d</button>`,
on which a second application injects nothing. -/
theorem claim_C8 :
    (∀ html inputs, healEmptyTags (healEmptyTags html inputs) inputs = healEmptyTags html inputs)
    ∧ healEmptyTags ("<button class=\"btn\"></button>".toList)
        [{ name := "label".toList, ty := "string".toList, defaultValue := none, default := none }]
      = "<button class=\"btn\">\x7b\x7b label \x7d\x7d</button>".toList := by
  constructor
  · intro html inputs
    cases hcond : anySuffix (fun u => (tryBtn u).isSome) html with
    | false =>
      have h1 : healEmptyTags html inputs = html := by
        unfold healEmptyTags
        rw [hcond]
        simp
      rw [h1]
      exact h1
    | true =>
      have h1 : healEmptyTags html inputs = repBtn (bindingVarOf inputs) html := by
        unfold healEmptyTags
        rw [hcond]
        simp
      have h2 : healEmptyTags (repBtn (bindingVarOf inputs) html) inputs
          = repBtn (bindingVarOf inputs) html := by
        unfold healEmptyTags
        rw [noBtn_repBtn (bindingVarOf inputs) (bindingVarOf_good inputs) html.length html le_rfl]
        simp
      rw [h1, h2]
  · decide

/-! ## Output handler: structural healer (`validateAndHealComponent`,
`injectInferredInputs`, design-validator.js lines 639-651 and 855-884)

The import regex `/import\s*{[^}]*Input[^}]*}\s*from/` is modelled by the
positional matcher `importInputAt` plus `anySuffix`; the rewrite regex
`/import\s*{([^}]*)}\s*from\s*['"]@angular\/core['"]/` by `coreImportAt` (the
returned first component is the text after the opening brace, whose maximal
brace-free prefix is the capture) plus the leftmost scan `findCoreImport`; and
`/(export\s+class\s+.*\{)/` by `classAt` plus `findClassStart`.  For the class
regex, `\s+` is greedy and backtracking never helps: a shorter whitespace run
either leaves the dot-star facing a whitespace character on the same line
(which cannot be the required brace and reaches the same line end) or leaves it
facing a line terminator, so the match at a position exists exactly when the
line following the maximal whitespace run contains a brace, and the capture
extends to the last brace of that line. -/

def importInputAt (s : Str) : Bool :=
  if ("import".toList).isPrefixOf s then
    match (s.drop 6).dropWhile isWsChar with
    | '{' :: s3 =>
      let body := s3.takeWhile (fun c => c ≠ '}')
      containsSub ("Input".toList) body &&
        (match s3.drop body.length with
         | '}' :: s4 => ("from".toList).isPrefixOf (s4.dropWhile isWsChar)
         | _ => false)
    | _ => false
  else false

/-- `code.match(/import\s*\x7b[^}]*Input[^}]*\x7d\s*from/)` as a Boolean. -/
def importInputTest (s : Str) : Bool := anySuffix importInputAt s

def expectQuote : Str → Option Str
  | [] => none
  | x :: xs => if x = '\'' || x = '"' then some xs else none

/-- Positional matcher for the `@angular/core` import statement; returns the
text after the opening brace and the text after the closing quote. -/
def coreImportAt (s : Str) : Option (Str × Str) :=
  if ("import".toList).isPrefixOf s then
    match (s.drop 6).dropWhile isWsChar with
    | '{' :: s3 =>
      let cap := s3.takeWhile (fun c => c ≠ '}')
      (match s3.drop cap.length with
       | '}' :: s4 =>
         let s5 := s4.dropWhile isWsChar
         if ("from".toList).isPrefixOf s5 then
           match expectQuote ((s5.drop 4).dropWhile isWsChar) with
           | some s6 =>
             if ("@angular/core".toList).isPrefixOf s6 then expectQuote (s6.drop 13)
             else none
           | none => none
         else none
       | _ => none).map (fun s7 => (s3, s7))
    | _ => none
  else none

def findCoreImport : Str → Option (Str × Str × Str)
  | [] => none
  | c :: cs =>
    match coreImportAt (c :: cs) with
    | some (s3, s7) => some ([], s3, s7)
    | none => (findCoreImport cs).map (fun x => (c :: x.1, x.2.1, x.2.2))

/-- The rebuilt import statement: `import \x7b $1, Input \x7d from '@angular/core'`. -/
def rebuiltImport (s3 : Str) : Str :=
  "import \x7b ".toList ++ s3.takeWhile (fun c => c ≠ '}')
    ++ ", Input \x7d from '@angular/core'".toList

def extendCoreImport (ts : Str) : Str :=
  match findCoreImport ts with
  | some (pre, s3, s7) => pre ++ rebuiltImport s3 ++ s7
  | none => ts

def coreFromSemi : Str := "from '@angular/core';".toList

def inputImportLine : Str := "import \x7b Input \x7d from '@angular/core';".toList

def ensureInputImport (ts : Str) : Str :=
  if containsSub ("Input".toList) ts = false then
    if containsSub ("from '@angular/core'".toList) ts then
      replaceFirstLit coreFromSemi (coreFromSemi ++ '\n' :: inputImportLine) ts
    else inputImportLine ++ '\n' :: ts
  else if importInputTest ts = false then extendCoreImport ts
  else ts

def notNl (c : Char) : Bool := !(c = '\n' || c = '\r')

/-- The prefix of `l` ending at its last opening brace. -/
def keepToLastBrace (l : Str) : Str := (l.reverse.dropWhile (fun c => c ≠ '{')).reverse

/-- Positional matcher for `/(export\s+class\s+.*\{)/`; returns the capture and
the rest of the string after it. -/
def classAt (s : Str) : Option (Str × Str) :=
  if ("export".toList).isPrefixOf s then
    let s1 := s.drop 6
    let w1 := s1.takeWhile isWsChar
    if w1 = [] then none
    else
      let s2 := s1.drop w1.length
      if ("class".toList).isPrefixOf s2 then
        let s3 := s2.drop 5
        let w2 := s3.takeWhile isWsChar
        if w2 = [] then none
        else
          let s4 := s3.drop w2.length
          let line := s4.takeWhile notNl
          if '{' ∈ line then
            let g := keepToLastBrace line
            some ("export".toList ++ w1 ++ "class".toList ++ w2 ++ g, s4.drop g.length)
          else none
      else none
  else none

def findClassStart : Str → Option (Str × Str × Str)
  | [] => none
  | c :: cs =>
    match classAt (c :: cs) with
    | some (g, rest) => some ([], g, rest)
    | none => (findClassStart cs).map (fun x => (c :: x.1, x.2.1, x.2.2))

/-- `input.default !== undefined ? \x60 = ...\x60 : ''` of the field template. -/
def defaultPartOf (i : InferredInput) : Str :=
  match i.default with
  | none => []
  | some (JsPrim.s v) => " = '".toList ++ v ++ ['\'']
  | some (JsPrim.n v) => " = ".toList ++ intStr v

/-- One injected declaration: `  @Input() name: type[ = default];`. -/
def fieldOf (i : InferredInput) : Str :=
  "  @Input() ".toList ++ i.name ++ ": ".toList ++ i.ty ++ defaultPartOf i ++ [';']

/-- JS `Array.prototype.join('\n')`. -/
def joinNl : List Str → Str
  | [] => []
  | [x] => x
  | x :: y :: t => x ++ '\n' :: joinNl (y :: t)

/-- The text spliced in after the class header (`$1` excluded). -/
def injText (inputs : List InferredInput) : Str :=
  "\n  // Stage 2: Injected Inputs\n".toList ++ joinNl (inputs.map fieldOf) ++ ['\n']

def injectInferredInputs (ts : Str) (inputs : List InferredInput) : Str :=
  if inputs = [] then ts
  else
    match findClassStart (ensureInputImport ts) with
    | some (pre, g, rest) => pre ++ g ++ injText inputs ++ rest
    | none => ensureInputImport ts

def validateAndHealComponent (ts : Str) (inputs : List InferredInput) : Str :=
  if inputs = [] then ts
  else if containsSub ("@Input".toList) ts then ts
  else injectInferredInputs ts inputs

/-! Supporting lemmas for the structural healer. -/

theorem containsSub_of_parts (p : Str) :
    ∀ x y : Str, containsSub p (x ++ p ++ y) = true := by
  intro x
  induction x with
  | nil =>
    intro y
    unfold containsSub
    rw [if_pos (List.isPrefixOf_iff_prefix.mpr (by simpa using List.prefix_append p y))]
  | cons c x' ih =>
    intro y
    unfold containsSub
    by_cases hp : p.isPrefixOf ((c :: x') ++ p ++ y) = true
    · rw [if_pos hp]
    · rw [if_neg hp]
      exact ih y

theorem containsSub_exists {p : Str} :
    ∀ {s : Str}, containsSub p s = true → ∃ x y, s = x ++ p ++ y := by
  intro s
  induction s with
  | nil =>
    intro h
    unfold containsSub at h
    by_cases hp : p.isPrefixOf ([] : Str) = true
    · have hpn : p = [] := List.prefix_nil.mp (List.isPrefixOf_iff_prefix.mp hp)
      exact ⟨[], [], by simp [hpn]⟩
    · rw [if_neg hp] at h
      exact absurd h (by simp)
  | cons c cs ih =>
    intro h
    unfold containsSub at h
    by_cases hp : p.isPrefixOf (c :: cs) = true
    · obtain ⟨t, ht⟩ := List.isPrefixOf_iff_prefix.mp hp
      exact ⟨[], t, by rw [← ht]; simp⟩
    · rw [if_neg hp] at h
      obtain ⟨x, y, hxy⟩ := ih h
      exact ⟨c :: x, y, by rw [hxy]; simp⟩

theorem replaceFirstLit_not_found {pat : Str} (rep : Str) :
    ∀ {s : Str}, containsSub pat s = false → replaceFirstLit pat rep s = s := by
  intro s
  induction s with
  | nil =>
    intro h
    unfold containsSub at h
    by_cases hp : pat.isPrefixOf ([] : Str) = true
    · rw [if_pos hp] at h
      exact absurd h (by simp)
    · unfold replaceFirstLit
      rw [if_neg hp]
  | cons c cs ih =>
    intro h
    unfold containsSub at h
    by_cases hp : pat.isPrefixOf (c :: cs) = true
    · rw [if_pos hp] at h
      exact absurd h (by simp)
    · rw [if_neg hp] at h
      unfold replaceFirstLit
      rw [if_neg hp]
      show c :: replaceFirstLit pat rep cs = c :: cs
      rw [ih h]

theorem replaceFirstLit_found {pat : Str} (rep : Str) :
    ∀ {s : Str}, containsSub pat s = true →
      ∃ pre suf, s = pre ++ pat ++ suf ∧ replaceFirstLit pat rep s = pre ++ rep ++ suf := by
  intro s
  induction s with
  | nil =>
    intro h
    unfold containsSub at h
    by_cases hp : pat.isPrefixOf ([] : Str) = true
    · have hpn : pat = [] := List.prefix_nil.mp (List.isPrefixOf_iff_prefix.mp hp)
      refine ⟨[], [], by simp [hpn], ?_⟩
      unfold replaceFirstLit
      rw [if_pos hp, hpn]
      simp
    · rw [if_neg hp] at h
      exact absurd h (by simp)
  | cons c cs ih =>
    intro h
    unfold containsSub at h
    by_cases hp : pat.isPrefixOf (c :: cs) = true
    · obtain ⟨t, ht⟩ := List.isPrefixOf_iff_prefix.mp hp
      refine ⟨[], (c :: cs).drop pat.length, ?_, ?_⟩
      · rw [← ht, drop_append_len]
        simp
      · unfold replaceFirstLit
        rw [if_pos hp]
        simp
    · rw [if_neg hp] at h
      obtain ⟨pre, suf, h1, h2⟩ := ih h
      refine ⟨c :: pre, suf, by rw [h1]; simp, ?_⟩
      unfold replaceFirstLit
      rw [if_neg hp]
      show c :: replaceFirstLit pat rep cs = (c :: pre) ++ rep ++ suf
      rw [h2]
      simp

theorem anySuffix_true_of (f : Str → Bool) :
    ∀ s u : Str, u <:+ s → f u = true → anySuffix f s = true := by
  intro s
  induction s with
  | nil =>
    intro u hu hf
    have : u = [] := List.suffix_nil.mp hu
    subst this
    exact hf
  | cons c cs ih =>
    intro u hu hf
    rcases suffix_cons_cases hu with h1 | h2
    · subst h1
      simp only [anySuffix, hf, Bool.true_or]
    · simp only [anySuffix, ih u h2 hf, Bool.or_true]

theorem containsSub_append_left {p y : Str} (h : containsSub p y = true) (x : Str) :
    containsSub p (x ++ y) = true := by
  obtain ⟨a, b, hab⟩ := containsSub_exists h
  rw [hab, show x ++ (a ++ p ++ b) = (x ++ a) ++ p ++ b by simp]
  exact containsSub_of_parts _ _ _

theorem dropWhile_append_stop {α : Type} (p : α → Bool) :
    ∀ (A : List α) (b : α) (rest : List α), (∀ a ∈ A, p a = true) → p b = false →
      (A ++ b :: rest).dropWhile p = b :: rest := by
  intro A
  induction A with
  | nil =>
    intro b rest _ hb
    simp [List.dropWhile, hb]
  | cons x xs ih =>
    intro b rest hA hb
    have hx : p x = true := hA x (by simp)
    simp only [List.cons_append, List.dropWhile_cons, hx, if_true]
    exact ih b rest (fun a ha => hA a (by simp [ha])) hb

theorem isPrefixOf_self_append (p w : Str) : p.isPrefixOf (p ++ w) = true :=
  List.isPrefixOf_iff_prefix.mpr (List.prefix_append p w)

/-- Completeness of the import-regex matcher on a decomposed import statement. -/
theorem importInputAt_complete {w1 body w2 : Str} (z : Str)
    (hw1 : AllWs w1) (hbody : ∀ c ∈ body, c ≠ '}')
    (hIn : containsSub ("Input".toList) body = true) (hw2 : AllWs w2) :
    importInputAt
      ("import".toList ++ (w1 ++ '{' :: (body ++ '}' :: (w2 ++ ("from".toList ++ z))))) = true := by
  unfold importInputAt
  rw [if_pos (isPrefixOf_self_append _ _)]
  have hd : ("import".toList ++ (w1 ++ '{' :: (body ++ '}' :: (w2 ++ ("from".toList ++ z))))).drop 6
      = w1 ++ '{' :: (body ++ '}' :: (w2 ++ ("from".toList ++ z))) := by
    rw [show (6 : Nat) = ("import".toList).length from by decide, drop_append_len]
  rw [hd]
  have hdw : (w1 ++ '{' :: (body ++ '}' :: (w2 ++ ("from".toList ++ z)))).dropWhile isWsChar
      = '{' :: (body ++ '}' :: (w2 ++ ("from".toList ++ z))) :=
    dropWhile_append_stop _ w1 '{' _ hw1 (by decide)
  rw [hdw]
  simp only []
  have htw : (body ++ '}' :: (w2 ++ ("from".toList ++ z))).takeWhile (fun c => c ≠ '}')
      = body := by
    apply takeWhile_append_stop
    · intro a ha; simpa using hbody a ha
    · simp
  rw [htw, hIn]
  simp only [Bool.true_and]
  rw [drop_append_len]
  have hdw2 : (w2 ++ ("from".toList ++ z)).dropWhile isWsChar = "from".toList ++ z := by
    rw [show "from".toList ++ z = 'f' :: ("rom".toList ++ z) from by
      rw [show ("from".toList) = 'f' :: ("rom".toList) from rfl]; rfl]
    exact dropWhile_append_stop _ w2 'f' _ hw2 (by decide)
  show ("from".toList).isPrefixOf ((w2 ++ ("from".toList ++ z)).dropWhile isWsChar) = true
  rw [hdw2]
  exact isPrefixOf_self_append _ _

theorem bool_flip {b : Bool} (h : ¬ b = true) : b = false := by
  cases hb : b
  · rfl
  · exact absurd hb h

theorem allWs_space : AllWs [' '] := by
  intro x hx
  simp only [List.mem_singleton] at hx
  subst hx
  decide

theorem importInputAt_line (z : Str) : importInputAt (inputImportLine ++ z) = true := by
  have hb : ∀ c ∈ (" Input ".toList), c ≠ '}' := by decide
  have hIn : containsSub ("Input".toList) (" Input ".toList) = true := by decide
  have h := importInputAt_complete (" '@angular/core';".toList ++ z) allWs_space hb hIn allWs_space
  have he : "import".toList ++ ([' '] ++ '{' :: (" Input ".toList ++ '}' ::
        ([' '] ++ ("from".toList ++ (" '@angular/core';".toList ++ z)))))
      = inputImportLine ++ z := by
    rw [show inputImportLine = "import".toList ++ ([' '] ++ '{' :: (" Input ".toList ++ '}' ::
        ([' '] ++ ("from".toList ++ " '@angular/core';".toList)))) from by decide]
    simp
  rw [← he]
  exact h

theorem importInputAt_rebuilt (s3 z : Str) : importInputAt (rebuiltImport s3 ++ z) = true := by
  have hb : ∀ c ∈ ' ' :: (s3.takeWhile (fun c => c ≠ '}') ++ ", Input ".toList), c ≠ '}' := by
    intro c hc
    simp only [List.mem_cons, List.mem_append] at hc
    rcases hc with rfl | hc | hc
    · decide
    · simpa using mem_takeWhile_sat _ s3 c hc
    · exact (by decide : ∀ x ∈ (", Input ".toList), x ≠ '}') c hc
  have hIn : containsSub ("Input".toList)
      (' ' :: (s3.takeWhile (fun c => c ≠ '}') ++ ", Input ".toList)) = true := by
    rw [show ", Input ".toList = ", ".toList ++ ("Input".toList ++ " ".toList) from by decide]
    rw [show ' ' :: (s3.takeWhile (fun c => c ≠ '}') ++ (", ".toList ++ ("Input".toList ++ " ".toList)))
        = (' ' :: (s3.takeWhile (fun c => c ≠ '}') ++ ", ".toList)) ++ "Input".toList ++ " ".toList
      from by simp]
    exact containsSub_of_parts _ _ _
  have h := importInputAt_complete (" '@angular/core'".toList ++ z) allWs_space hb hIn allWs_space
  have he : "import".toList ++ ([' '] ++ '{' :: ((' ' :: (s3.takeWhile (fun c => c ≠ '}') ++ ", Input ".toList)) ++ '}' ::
        ([' '] ++ ("from".toList ++ (" '@angular/core'".toList ++ z)))))
      = rebuiltImport s3 ++ z := by
    unfold rebuiltImport
    rw [show ("import \x7b ".toList) = "import".toList ++ [' ', '{', ' '] from by decide,
      show (", Input \x7d from '@angular/core'".toList)
        = ", Input ".toList ++ '}' :: (' ' :: ("from".toList ++ " '@angular/core'".toList)) from by decide]
    simp
  rw [← he]
  exact h

theorem contains_input_line (z : Str) :
    containsSub ("Input".toList) (inputImportLine ++ z) = true := by
  rw [show inputImportLine
      = "import \x7b ".toList ++ ("Input".toList ++ " \x7d from '@angular/core';".toList) from by decide]
  rw [show ("import \x7b ".toList ++ ("Input".toList ++ " \x7d from '@angular/core';".toList)) ++ z
      = "import \x7b ".toList ++ "Input".toList ++ (" \x7d from '@angular/core';".toList ++ z) from by simp]
  exact containsSub_of_parts _ _ _

theorem contains_input_rebuilt (s3 z : Str) :
    containsSub ("Input".toList) (rebuiltImport s3 ++ z) = true := by
  unfold rebuiltImport
  rw [show (", Input \x7d from '@angular/core'".toList)
      = ", ".toList ++ ("Input".toList ++ " \x7d from '@angular/core'".toList) from by decide]
  rw [show ("import \x7b ".toList ++ s3.takeWhile (fun c => c ≠ '}')
        ++ (", ".toList ++ ("Input".toList ++ " \x7d from '@angular/core'".toList))) ++ z
      = ("import \x7b ".toList ++ s3.takeWhile (fun c => c ≠ '}') ++ ", ".toList)
        ++ "Input".toList ++ (" \x7d from '@angular/core'".toList ++ z) from by simp]
  exact containsSub_of_parts _ _ _

theorem extendCoreImport_some {ts pre s3 s7 : Str} (h : findCoreImport ts = some (pre, s3, s7)) :
    extendCoreImport ts = pre ++ rebuiltImport s3 ++ s7 := by
  unfold extendCoreImport
  rw [h]

theorem extendCoreImport_none {ts : Str} (h : findCoreImport ts = none) :
    extendCoreImport ts = ts := by
  unfold extendCoreImport
  rw [h]

theorem ensure_noInput_core {ts : Str} (h1 : containsSub ("Input".toList) ts = false)
    (h2 : containsSub ("from '@angular/core'".toList) ts = true) :
    ensureInputImport ts
      = replaceFirstLit coreFromSemi (coreFromSemi ++ '\n' :: inputImportLine) ts := by
  unfold ensureInputImport
  rw [if_pos h1, if_pos h2]

theorem ensure_noInput_noCore {ts : Str} (h1 : containsSub ("Input".toList) ts = false)
    (h2 : containsSub ("from '@angular/core'".toList) ts = false) :
    ensureInputImport ts = inputImportLine ++ '\n' :: ts := by
  unfold ensureInputImport
  rw [if_pos h1, h2]
  simp

theorem ensure_hasInput_test {ts : Str} (h1 : containsSub ("Input".toList) ts = true)
    (h4 : importInputTest ts = true) : ensureInputImport ts = ts := by
  unfold ensureInputImport
  rw [h1, h4]
  simp

theorem ensure_hasInput_notest {ts : Str} (h1 : containsSub ("Input".toList) ts = true)
    (h4 : importInputTest ts = false) : ensureInputImport ts = extendCoreImport ts := by
  unfold ensureInputImport
  rw [h1, h4]
  simp

theorem ensureInputImport_idem (ts : Str) :
    ensureInputImport (ensureInputImport ts) = ensureInputImport ts := by
  by_cases h1 : containsSub ("Input".toList) ts = true
  · by_cases h4 : importInputTest ts = true
    · rw [ensure_hasInput_test h1 h4, ensure_hasInput_test h1 h4]
    · have h4' : importInputTest ts = false := bool_flip h4
      rw [ensure_hasInput_notest h1 h4']
      cases hf : findCoreImport ts with
      | none =>
        rw [extendCoreImport_none hf, ensure_hasInput_notest h1 h4', extendCoreImport_none hf]
      | some x =>
        obtain ⟨pre, s3, s7⟩ := x
        rw [extendCoreImport_some hf]
        have hI : containsSub ("Input".toList) (pre ++ rebuiltImport s3 ++ s7) = true := by
          rw [show pre ++ rebuiltImport s3 ++ s7 = pre ++ (rebuiltImport s3 ++ s7) by simp]
          exact containsSub_append_left (contains_input_rebuilt s3 s7) pre
        have hT : importInputTest (pre ++ rebuiltImport s3 ++ s7) = true := by
          apply anySuffix_true_of _ _ (rebuiltImport s3 ++ s7)
          · exact ⟨pre, by simp⟩
          · exact importInputAt_rebuilt s3 s7
        rw [ensure_hasInput_test hI hT]
  · have h1' : containsSub ("Input".toList) ts = false := bool_flip h1
    by_cases h2 : containsSub ("from '@angular/core'".toList) ts = true
    · rw [ensure_noInput_core h1' h2]
      by_cases h3 : containsSub coreFromSemi ts = true
      · obtain ⟨pre, suf, hts, hrep⟩ := replaceFirstLit_found (coreFromSemi ++ '\n' :: inputImportLine) h3
        rw [hrep]
        have hI : containsSub ("Input".toList)
            (pre ++ (coreFromSemi ++ '\n' :: inputImportLine) ++ suf) = true := by
          rw [show pre ++ (coreFromSemi ++ '\n' :: inputImportLine) ++ suf
              = (pre ++ coreFromSemi) ++ ('\n' :: [] ++ (inputImportLine ++ suf)) by simp]
          apply containsSub_append_left
          exact containsSub_append_left (contains_input_line suf) _
        have hT : importInputTest (pre ++ (coreFromSemi ++ '\n' :: inputImportLine) ++ suf) = true := by
          apply anySuffix_true_of _ _ (inputImportLine ++ suf)
          · exact ⟨pre ++ coreFromSemi ++ ['\n'], by simp⟩
          · exact importInputAt_line suf
        rw [ensure_hasInput_test hI hT]
      · have h3' : containsSub coreFromSemi ts = false := bool_flip h3
        rw [replaceFirstLit_not_found _ h3', ensure_noInput_core h1' h2,
          replaceFirstLit_not_found _ h3']
    · have h2' : containsSub ("from '@angular/core'".toList) ts = false := bool_flip h2
      rw [ensure_noInput_noCore h1' h2']
      have hI : containsSub ("Input".toList) (inputImportLine ++ '\n' :: ts) = true :=
        contains_input_line _
      have hT : importInputTest (inputImportLine ++ '\n' :: ts) = true := by
        apply anySuffix_true_of _ _ (inputImportLine ++ '\n' :: ts) (List.suffix_refl _)
        exact importInputAt_line ('\n' :: ts)
      rw [ensure_hasInput_test hI hT]

theorem parts_trans {p m' m : Str} (h1 : ∃ a b, m = a ++ m' ++ b)
    (h2 : ∃ a b, m' = a ++ p ++ b) : ∃ a b, m = a ++ p ++ b := by
  obtain ⟨a1, b1, e1⟩ := h1
  obtain ⟨a2, b2, e2⟩ := h2
  exact ⟨a1 ++ a2, b2 ++ b1, by rw [e1, e2]; simp⟩

theorem containsSub_mono_parts {p m : Str} (h : ∃ a b, m = a ++ p ++ b) (x y : Str) :
    containsSub p (x ++ m ++ y) = true := by
  obtain ⟨a, b, hab⟩ := h
  rw [hab, show x ++ (a ++ p ++ b) ++ y = (x ++ a) ++ p ++ (b ++ y) by simp]
  exact containsSub_of_parts _ _ _

theorem joinNl_head_parts (f : InferredInput → Str) (i : InferredInput) :
    ∀ t : List InferredInput, ∃ y, joinNl ((i :: t).map f) = f i ++ y := by
  intro t
  cases t with
  | nil => exact ⟨[], by simp [joinNl]⟩
  | cons j t' => exact ⟨'\n' :: joinNl ((j :: t').map f), rfl⟩

theorem joinNl_mem_parts (f : InferredInput → Str) :
    ∀ (l : List InferredInput) (i : InferredInput), i ∈ l →
      ∃ x y, joinNl (l.map f) = x ++ f i ++ y := by
  intro l
  induction l with
  | nil => intro i hi; simp at hi
  | cons a t ih =>
    intro i hi
    rcases List.mem_cons.mp hi with rfl | hi'
    · obtain ⟨y, hy⟩ := joinNl_head_parts f i t
      exact ⟨[], y, by simpa using hy⟩
    · cases t with
      | nil => simp at hi'
      | cons b t' =>
        obtain ⟨x, y, hxy⟩ := ih i hi'
        refine ⟨f a ++ '\n' :: x, y, ?_⟩
        show f a ++ '\n' :: joinNl ((b :: t').map f) = (f a ++ '\n' :: x) ++ f i ++ y
        rw [hxy]
        simp

theorem fieldOf_split (i : InferredInput) :
    fieldOf i = "  ".toList ++ "@Input".toList
      ++ ("() ".toList ++ i.name ++ ": ".toList ++ i.ty ++ defaultPartOf i ++ [';']) := by
  unfold fieldOf
  rw [show ("  @Input() ".toList) = "  ".toList ++ "@Input".toList ++ "() ".toList from by decide]
  simp

theorem contains_atInput_output (pre g rest : Str) (i : InferredInput) (t : List InferredInput) :
    containsSub ("@Input".toList) (pre ++ g ++ injText (i :: t) ++ rest) = true := by
  obtain ⟨y, hy⟩ := joinNl_head_parts fieldOf i t
  have h2 : ∃ a b, joinNl ((i :: t).map fieldOf) = a ++ "@Input".toList ++ b := by
    refine ⟨"  ".toList,
      "() ".toList ++ i.name ++ ": ".toList ++ i.ty ++ defaultPartOf i ++ [';'] ++ y, ?_⟩
    rw [hy, fieldOf_split]
    simp
  have h1 : ∃ a b, injText (i :: t) = a ++ joinNl ((i :: t).map fieldOf) ++ b :=
    ⟨"\n  // Stage 2: Injected Inputs\n".toList, ['\n'], rfl⟩
  exact containsSub_mono_parts (parts_trans h1 h2) (pre ++ g) rest

theorem validateAndHeal_marker {ts : Str} {inputs : List InferredInput}
    (h : containsSub ("@Input".toList) ts = true) (hne : inputs ≠ []) :
    validateAndHealComponent ts inputs = ts := by
  unfold validateAndHealComponent
  rw [if_neg hne, if_pos h]

theorem validateAndHeal_inject {ts : Str} {inputs : List InferredInput}
    (hne : inputs ≠ []) (h : containsSub ("@Input".toList) ts = false) :
    validateAndHealComponent ts inputs = injectInferredInputs ts inputs := by
  unfold validateAndHealComponent
  rw [if_neg hne, h]
  simp

theorem injectInferredInputs_some {ts pre g rest : Str} {inputs : List InferredInput}
    (hne : inputs ≠ []) (hf : findClassStart (ensureInputImport ts) = some (pre, g, rest)) :
    injectInferredInputs ts inputs = pre ++ g ++ injText inputs ++ rest := by
  unfold injectInferredInputs
  rw [if_neg hne, hf]

theorem injectInferredInputs_none {ts : Str} {inputs : List InferredInput}
    (hne : inputs ≠ []) (hf : findClassStart (ensureInputImport ts) = none) :
    injectInferredInputs ts inputs = ensureInputImport ts := by
  unfold injectInferredInputs
  rw [if_neg hne, hf]

theorem validateAndHeal_idem (ts : Str) (inputs : List InferredInput) :
    validateAndHealComponent (validateAndHealComponent ts inputs) inputs
      = validateAndHealComponent ts inputs := by
  by_cases hne : inputs = []
  · subst hne
    unfold validateAndHealComponent
    simp
  · by_cases hm : containsSub ("@Input".toList) ts = true
    · rw [validateAndHeal_marker hm hne, validateAndHeal_marker hm hne]
    · have hm' := bool_flip hm
      rw [validateAndHeal_inject hne hm']
      cases hf : findClassStart (ensureInputImport ts) with
      | some x =>
        obtain ⟨pre, g, rest⟩ := x
        rw [injectInferredInputs_some hne hf]
        obtain ⟨i, t, hit⟩ : ∃ i t, inputs = i :: t := by
          cases inputs with
          | nil => exact absurd rfl hne
          | cons i t => exact ⟨i, t, rfl⟩
        subst hit
        exact validateAndHeal_marker (contains_atInput_output pre g rest i t) hne
      | none =>
        rw [injectInferredInputs_none hne hf]
        by_cases hm2 : containsSub ("@Input".toList) (ensureInputImport ts) = true
        · exact validateAndHeal_marker hm2 hne
        · have hm2' := bool_flip hm2
          rw [validateAndHeal_inject hne hm2']
          have hem : ensureInputImport (ensureInputImport ts) = ensureInputImport ts :=
            ensureInputImport_idem ts
          rw [injectInferredInputs_none hne (by rw [hem]; exact hf)]
          exact hem

/-- C6 counterexample.  The property-declaration marker is checked GLOBALLY:
`tsCode.includes('@Input')` suppresses all injection as soon as any input
declaration exists, so an artifact that declares `foo` but not `bar` is
returned unchanged for inferred inputs `[bar]`, and the healed artifact does
not contain a declaration for every inferred input. -/
theorem claim_C6_counterexample :
    validateAndHealComponent ("export class Test \x7b\n  @Input() foo: string;\n\x7d".toList)
        [{ name := "bar".toList, ty := "string".toList, defaultValue := none, default := none }]
      = "export class Test \x7b\n  @Input() foo: string;\n\x7d".toList
    ∧ containsSub ("@Input() bar".toList)
        (validateAndHealComponent ("export class Test \x7b\n  @Input() foo: string;\n\x7d".toList)
          [{ name := "bar".toList, ty := "string".toList, defaultValue := none, default := none }])
      = false := by
  constructor
  · decide
  · decide

/-- C6 (amended): the marker check is global — if the structural artifact
contains `@Input` anywhere, healing returns it unchanged for every input list;
only when the marker is absent altogether does healing inject, and then the
output contains one declaration for EVERY inferred input (when an export-class
header is found), with the `Input` import prepended when the artifact mentions
neither `Input` nor the core module, or the first `@angular/core` import list
extended with `Input` when `Input` occurs without a matching import; re-running
structural healing on a healed artifact changes nothing. -/
theorem claim_C6_amended (ts : Str) (inputs : List InferredInput) :
    (containsSub ("@Input".toList) ts = true → validateAndHealComponent ts inputs = ts)
    ∧ validateAndHealComponent (validateAndHealComponent ts inputs) inputs
        = validateAndHealComponent ts inputs
    ∧ (inputs ≠ [] → containsSub ("@Input".toList) ts = false →
        ∀ pre g rest, findClassStart (ensureInputImport ts) = some (pre, g, rest) →
          ∀ i ∈ inputs, containsSub (fieldOf i) (validateAndHealComponent ts inputs) = true)
    ∧ (containsSub ("Input".toList) ts = false →
        containsSub ("from '@angular/core'".toList) ts = false →
          ensureInputImport ts = inputImportLine ++ '\n' :: ts)
    ∧ (containsSub ("Input".toList) ts = true → importInputTest ts = false →
        ∀ pre s3 s7, findCoreImport ts = some (pre, s3, s7) →
          ensureInputImport ts = pre ++ rebuiltImport s3 ++ s7) := by
  refine ⟨?_, validateAndHeal_idem ts inputs, ?_, ?_, ?_⟩
  · intro h
    by_cases hne : inputs = []
    · subst hne
      unfold validateAndHealComponent
      simp
    · exact validateAndHeal_marker h hne
  · intro hne hm pre g rest hf i hi
    rw [validateAndHeal_inject hne hm, injectInferredInputs_some hne hf]
    have h1 : ∃ a b, injText inputs = a ++ joinNl (inputs.map fieldOf) ++ b :=
      ⟨"\n  // Stage 2: Injected Inputs\n".toList, ['\n'], rfl⟩
    exact containsSub_mono_parts (parts_trans h1 (joinNl_mem_parts fieldOf inputs i hi))
      (pre ++ g) rest
  · intro h1 h2
    exact ensure_noInput_noCore h1 h2
  · intro h1 h4 pre s3 s7 hf
    rw [ensure_hasInput_notest h1 h4, extendCoreImport_some hf]

theorem claim_C6_amended_witness :
    validateAndHealComponent ("a @Input b".toList)
        [{ name := "bar".toList, ty := "string".toList, defaultValue := none, default := none }]
      = "a @Input b".toList
    ∧ containsSub
        (fieldOf { name := "bar".toList, ty := "string".toList, defaultValue := none, default := none })
        (validateAndHealComponent ("export class Test \x7b\n\x7d".toList)
          [{ name := "bar".toList, ty := "string".toList, defaultValue := none, default := none }])
      = true
    ∧ ensureInputImport ("export class Test \x7b\n\x7d".toList)
        = inputImportLine ++ '\n' :: ("export class Test \x7b\n\x7d".toList)
    ∧ ensureInputImport ("// Input\nimport \x7b Component \x7d from '@angular/core';\n".toList)
        = "// Input\n".toList
          ++ rebuiltImport (" Component \x7d from '@angular/core';\n".toList) ++ ";\n".toList := by
  refine ⟨?_, ?_, ?_, ?_⟩
  · exact (claim_C6_amended _ _).1 (by decide)
  · exact (claim_C6_amended _ _).2.2.1 (by decide) (by decide)
      ("import \x7b Input \x7d from '@angular/core';\n".toList)
      ("export class Test \x7b".toList) ("\n\x7d".toList) (by decide) _ (by decide)
  · exact (claim_C6_amended _ ([] : List InferredInput)).2.2.2.1 (by decide) (by decide)
  · exact (claim_C6_amended _ ([] : List InferredInput)).2.2.2.2 (by decide) (by decide)
      ("// Input\n".toList) (" Component \x7d from '@angular/core';\n".toList) (";\n".toList)
      (by decide)

/-! ## Response parser (`parseGeminiResponse` and its stages, design-validator.js)

`extractCodeBlock` (lines 750-791): the primary pattern is the lazy
case-insensitive fenced block; its leftmost match starts at the first
occurrence of the fence-plus-language and the lazy group ends at the next
fence.  Fallback 1 matches a fence pair whose closing fence is followed, on the
same line, by the language name; the lazy group extends fence by fence until
the line test succeeds (a later starting fence has only a subset of closing
candidates, so leftmost always means the first fence).  Fallbacks 2-4 match a
comment marker plus the component name, then (greedily, so up to the LAST
occurrence in that line) `.component.<ext>`, and capture lazily up to the next
fence or the end of input.  Component names are modelled as regex-literal text
(the generator uses plain alphanumeric names; the dot of the appended
`.stories` is an any-character in the real pattern but matches the literal dot
in particular). -/

/-- A line for the dot metacharacter: JS `.` matches anything except a line
terminator. -/
def lineOf (s : Str) : Str := s.takeWhile notNl

/-- Content cut at the lookahead of fallbacks 2-4: up to the next fence or the
end of input. -/
def cutAtFence (tail : Str) : Str :=
  match splitAtFirst ("```".toList) tail with
  | some (pre, _) => pre
  | none => tail

/-- Primary pattern: content of the first case-insensitive fenced block of the
given language. -/
def extractPrimary (lang response : Str) : Option Str :=
  match splitAtFirstCI ("```".toList ++ lang) response with
  | none => none
  | some (_, r) =>
    match splitAtFirst ("```".toList) (r.drop (3 + lang.length)) with
    | some (pre, _) => some pre
    | none => none

/-- Fallback 1 worker: starting after the opening fence, extend the lazy group
fence by fence until the language name occurs on the closing fence's line. -/
def p1Go (lang : Str) : Nat → Str → Option Str
  | 0, _ => none
  | fuel + 1, s =>
    match splitAtFirst ("```".toList) s with
    | none => none
    | some (pre, r) =>
      if ciContainsSub lang (lineOf (r.drop 3)) then some pre
      else
        match p1Go lang fuel (r.drop 3) with
        | some c => some (pre ++ "```".toList ++ c)
        | none => none

def extractAltFence (lang response : Str) : Option Str :=
  match splitAtFirst ("```".toList) response with
  | none => none
  | some (_, r) => p1Go lang (r.drop 3).length (r.drop 3)

/-- End position (just past the match) of the last case-insensitive occurrence
of `pat` in `s`. -/
def lastCiEndGo (pat : Str) : Str → Nat → Option Nat → Option Nat
  | [], _, acc => acc
  | c :: cs, i, acc =>
    lastCiEndGo pat cs (i + 1) (if ciIsPrefixOf pat (c :: cs) then some (i + pat.length) else acc)

def lastCiEnd (pat s : Str) : Option Nat := lastCiEndGo pat s 0 none

/-- Fallbacks 2-4: comment marker + component name, greedily to the last
`.component.<ext>` of the line, then capture to the next fence or the end. -/
def extractCmtGo (opn nm pext : Str) : Str → Option Str
  | [] => none
  | c :: cs =>
    if ciIsPrefixOf (opn ++ nm) (c :: cs) then
      match lastCiEnd pext (lineOf ((c :: cs).drop (opn ++ nm).length)) with
      | some e => some (cutAtFence (((c :: cs).drop (opn ++ nm).length).drop e))
      | none => extractCmtGo opn nm pext cs
    else extractCmtGo opn nm pext cs

def getFileExtension (lang : Str) : Str :=
  if lang = "typescript".toList then "ts".toList
  else if lang = "html".toList then "html".toList
  else if lang = "scss".toList then "scss".toList
  else if lang = "css".toList then "css".toList
  else "txt".toList

def extractMatch (response lang componentName : Str) : Option Str :=
  match extractPrimary lang response with
  | some c => some c
  | none =>
    match extractAltFence lang response with
    | some c => some c
    | none =>
      match extractCmtGo ("// ".toList) componentName
          (".component.".toList ++ getFileExtension lang) response with
      | some c => some c
      | none =>
        match extractCmtGo ("<!-- ".toList) componentName
            (".component.".toList ++ getFileExtension lang) response with
        | some c => some c
        | none =>
          extractCmtGo ("/* ".toList) componentName
            (".component.".toList ++ getFileExtension lang) response

/-- Global-replace scaffold: `m` returns the replacement text and the rest of
the input after the match; unmatched characters are copied. -/
def gsubGo (m : Str → Option (Str × Str)) : Nat → Str → Str
  | 0, s => s
  | _ + 1, [] => []
  | fuel + 1, c :: cs =>
    match m (c :: cs) with
    | some (rep, rest) => rep ++ gsubGo m fuel rest
    | none => c :: gsubGo m fuel cs

def gsub (m : Str → Option (Str × Str)) (s : Str) : Str := gsubGo m s.length s

/-- `/styleUrl:\s*['"\x60]([^'"\x60]+)['"\x60]/g` matcher of `fixAngularSyntax`. -/
def styleUrlAt (s : Str) : Option (Str × Str) :=
  if ("styleUrl:".toList).isPrefixOf s then
    let r1 := (s.drop 9).dropWhile isWsChar
    match r1 with
    | q :: r2 =>
      if q = '\'' || q = '"' || q = '\x60' then
        let b := r2.takeWhile (fun c => ¬(c = '\'' ∨ c = '"' ∨ c = '\x60'))
        if b = [] then none
        else
          match r2.drop b.length with
          | q2 :: r3 =>
            if q2 = '\'' || q2 = '"' || q2 = '\x60' then
              some ("styleUrls: ['".toList ++ b ++ "']".toList, r3)
            else none
          | [] => none
      else none
    | [] => none
  else none

def fixAngularSyntax (content : Str) : Str := gsub styleUrlAt content

/-- One extracted artifact. -/
structure Artifact where
  fileName : Str
  content : Str
  language : Str
  size : Nat
deriving DecidableEq

def extractCodeBlock (response lang componentName : Str) : Except Str Artifact :=
  match extractMatch response lang componentName with
  | none => Except.error ("No ".toList ++ lang ++ " code block found".toList)
  | some raw =>
    let content0 := trimStr raw
    let content :=
      if lang = "typescript".toList && !(List.isSuffixOf (".stories".toList) componentName) then
        fixAngularSyntax content0
      else content0
    let fileName :=
      if List.isSuffixOf (".stories".toList) componentName then
        lowerStr componentName ++ ".ts".toList
      else
        lowerStr componentName ++ ".component.".toList ++ getFileExtension lang
    Except.ok ⟨fileName, content, lang, content.length⟩

/-! The templateUrl self-heal (lines 155-165): test `includes('templateUrl,')`
or `/templateUrl\s*\x7d/`, then rewrite `/templateUrl\s*,/g` and
`/templateUrl\s*\x7d/g`. -/

def tuDelimAt (delim : Char) (s : Str) : Bool :=
  if ("templateUrl".toList).isPrefixOf s then
    match (s.drop 11).dropWhile isWsChar with
    | c :: _ => c = delim
    | [] => false
  else false

def tuRepAt (delim : Char) (rep : Str) (s : Str) : Option (Str × Str) :=
  if ("templateUrl".toList).isPrefixOf s then
    match (s.drop 11).dropWhile isWsChar with
    | c :: r => if c = delim then some (rep, r) else none
    | [] => none
  else none

def fixedPathOf (componentName : Str) : Str :=
  "templateUrl: './".toList ++ lowerStr componentName ++ ".component.html',".toList

def templateUrlHeal (componentName content : Str) : Str :=
  if containsSub ("templateUrl,".toList) content || anySuffix (tuDelimAt '}') content then
    gsub (tuRepAt '}' (fixedPathOf componentName ++ '\n' :: ['}']))
      (gsub (tuRepAt ',' (fixedPathOf componentName)) content)
  else content

/-! `sanitizeFrameworkCode` (lines 571-631). -/

/-- `/import.*primeng.*\n?/g`: an `import` whose line mentions `primeng`; the
match runs to the end of the line including a following newline. -/
def importPrimengAt (s : Str) : Option (Str × Str) :=
  if ("import".toList).isPrefixOf s then
    if containsSub ("primeng".toList) ((lineOf s).drop 6) then
      match s.drop (lineOf s).length with
      | '\n' :: r => some ([], r)
      | r => some ([], r)
    else none
  else none

/-- `/<lit>,?\s*/g` for the four module-name removals. -/
def moduleAt (lit : Str) (s : Str) : Option (Str × Str) :=
  if lit.isPrefixOf s then
    let r1 := s.drop lit.length
    let r2 := match r1 with
      | ',' :: t => t
      | t => t
    some ([], r2.dropWhile isWsChar)
  else none

def sanitizeTs (tsCode : Str) : Str :=
  if containsSub ("primeng".toList) tsCode || containsSub ("Module\x7d".toList) tsCode then
    gsub (moduleAt ("StyleClassModule".toList))
      (gsub (moduleAt ("RippleModule".toList))
        (gsub (moduleAt ("InputTextModule".toList))
          (gsub (moduleAt ("ButtonModule".toList))
            (gsub importPrimengAt tsCode))))
  else tsCode

/-- First capture of `/key['"]([^'"]+)['"]/` inside an attribute string. -/
def attrCapAt (key : Str) (s : Str) : Option Str :=
  if key.isPrefixOf s then
    match s.drop key.length with
    | q :: r =>
      if q = '\'' || q = '"' then
        let b := r.takeWhile (fun c => ¬(c = '\'' ∨ c = '"'))
        if b = [] then none
        else
          match r.drop b.length with
          | q2 :: _ => if q2 = '\'' || q2 = '"' then some b else none
          | [] => none
      else none
    | [] => none
  else none

def findAttrCap (key : Str) : Str → Option Str
  | [] => none
  | c :: cs =>
    match attrCapAt key (c :: cs) with
    | some b => some b
    | none => findAttrCap key cs

/-- The `<p-button ...>` rewrite callback. -/
def pButtonRep (attrs : Str) : Str :=
  let label := match findAttrCap ("label=".toList) attrs with
    | some v => v
    | none => []
  let clickAttr := match findAttrCap ("(click)=".toList) attrs with
    | some v => " (click)=\"".toList ++ v ++ ['"']
    | none => []
  let disabledAttr := match findAttrCap ("[disabled]=".toList) attrs with
    | some v => " [disabled]=\"".toList ++ v ++ ['"']
    | none => []
  let btnClass :=
    if containsSub ("secondary".toList) attrs then "btn btn-secondary".toList
    else if containsSub ("ghost".toList) attrs || containsSub ("text".toList) attrs then
      "btn btn-ghost".toList
    else "btn btn-primary".toList
  "<button class=\"".toList ++ btnClass ++ ['"'] ++ clickAttr ++ disabledAttr ++ ['>'] ++ label

def pButtonAt (s : Str) : Option (Str × Str) :=
  if ("<p-button".toList).isPrefixOf s then
    let a := (s.drop 9).takeWhile (fun c => c ≠ '>')
    match (s.drop 9).drop a.length with
    | '>' :: r => some (pButtonRep a, r)
    | _ => none
  else none

def pInputTextAt (s : Str) : Option (Str × Str) :=
  if ("<p-inputText".toList).isPrefixOf s then
    let a := (s.drop 12).takeWhile (fun c => c ≠ '>')
    match (s.drop 12).drop a.length with
    | '>' :: r => some ("<input class=\"input-field\"".toList ++ a ++ ['>'], r)
    | _ => none
  else none

def sanitizeHtml (htmlCode : Str) : Str :=
  if containsSub ("<p-".toList) htmlCode || containsSub ("pButton".toList) htmlCode then
    replaceAllLit ("</p-".toList) ("</".toList)
      (replaceAllLit ("<p-".toList) ("<".toList)
        (replaceAllLit ("</p-inputText>".toList) []
          (gsub pInputTextAt
            (replaceAllLit ("</p-button>".toList) ("</button>".toList)
              (gsub pButtonAt htmlCode)))))
  else htmlCode

/-! `visualGatekeeper` (lines 232-394) with its Figma-tree helpers
`findFillNode` and `findTextNode` (lines 399-427).  Pixel quantities are
modelled as integers (the ASCII/int model of the design export); colors stay
exact rationals as in the color-utility section. -/

structure FigmaColor where
  r : ℚ
  g : ℚ
  b : ℚ

structure FigmaFill where
  ftype : Str
  visible : Option Bool
  color : Option FigmaColor

mutual
inductive FigmaNode where
  | mk (ntype : Str) (fills : Option (List FigmaFill)) (cornerRadius : Option Int)
      (paddingTop paddingBottom paddingLeft paddingRight : Option Int)
      (fontSize fontWeight : Option Int) (children : Option FigmaNodeList)
inductive FigmaNodeList where
  | nil
  | cons (n : FigmaNode) (l : FigmaNodeList)
end

mutual
/-- First node fill that is SOLID, not explicitly invisible, and has a color
(the `fill` component of the JS result). -/
def findFillNode : FigmaNode → Option FigmaFill
  | FigmaNode.mk _ fills _ _ _ _ _ _ _ children =>
    match (match fills with
           | some fl =>
             fl.find? (fun f =>
               f.ftype = ("SOLID".toList) && f.visible ≠ some false && f.color.isSome)
           | none => none) with
    | some f => some f
    | none =>
      match children with
      | some cl => findFillNodeList cl
      | none => none

def findFillNodeList : FigmaNodeList → Option FigmaFill
  | FigmaNodeList.nil => none
  | FigmaNodeList.cons n l =>
    match findFillNode n with
    | some f => some f
    | none => findFillNodeList l
end

mutual
/-- First node of type TEXT in traversal order. -/
def findTextNode : FigmaNode → Option FigmaNode
  | n@(FigmaNode.mk ntype _ _ _ _ _ _ _ _ children) =>
    if ntype = ("TEXT".toList) then some n
    else
      match children with
      | some cl => findTextNodeList cl
      | none => none

def findTextNodeList : FigmaNodeList → Option FigmaNode
  | FigmaNodeList.nil => none
  | FigmaNodeList.cons n l =>
    match findTextNode n with
    | some f => some f
    | none => findTextNodeList l
end

def buttonRules (hexColor contrastColor borderRadius padding fontSize : Str)
    (fontWeight : Option Int) : Str :=
  "\n      background-color: ".toList ++ hexColor ++ " !important;".toList
  ++ "\n      border-color: ".toList ++ hexColor ++ " !important;".toList
  ++ "\n      color: ".toList ++ contrastColor ++ " !important;".toList
  ++ "\n      border-radius: ".toList ++ borderRadius ++ " !important;".toList
  ++ "\n      padding: ".toList ++ padding ++ " !important;".toList
  ++ "\n      font-size: ".toList ++ fontSize ++ " !important;".toList
  ++ "\n      ".toList
  ++ (match fontWeight with
      | some w => "font-weight: ".toList ++ intStr w ++ " !important;".toList
      | none => [])
  ++ "\n      \n      display: inline-flex !important;\n      align-items: center !important;\n      justify-content: center !important;\n      line-height: 1.5 !important;\n    ".toList

def cardRules (hexColor borderRadius padding : Str) : Str :=
  "\n      background-color: ".toList ++ hexColor ++ " !important;".toList
  ++ "\n      border-radius: ".toList ++ borderRadius ++ " !important;".toList
  ++ "\n      // Use the Padding as the container padding\n      padding: ".toList ++ padding
  ++ " !important;".toList
  ++ "\n      \n      // Do NOT enforce global text color on cards (it kills internal hierarchy)\n      // Do NOT enforce inline-flex (cards are block/flex containers)\n      display: block !important; \n      box-shadow: 0 4px 6px -1px rgba(0, 0, 0, 0.1), 0 2px 4px -1px rgba(0, 0, 0, 0.06) !important; // Add subtle shadow for cards\n    ".toList

def iconRules (hexColor : Str) : Str :=
  "\n       color: ".toList ++ hexColor ++ " !important;".toList
  ++ "\n       fill: ".toList ++ hexColor ++ " !important;".toList
  ++ "\n       // Icons don't usually need padding/radius enforcement from the parent node\n       display: inline-block !important;\n     ".toList

def inputRules (hexColor borderRadius padding fontSize : Str) : Str :=
  "\n        border: 1px solid ".toList ++ hexColor ++ " !important; // Use color for border".toList
  ++ "\n        border-radius: ".toList ++ borderRadius ++ " !important;".toList
  ++ "\n        padding: ".toList ++ padding ++ " !important;".toList
  ++ "\n        font-size: ".toList ++ fontSize ++ " !important;".toList
  ++ "\n        background-color: #ffffff !important; // Inputs usually white\n        color: #333333 !important;\n      ".toList

def defaultRules (hexColor borderRadius : Str) : Str :=
  "\n      background-color: ".toList ++ hexColor ++ " !important;".toList
  ++ "\n      border-radius: ".toList ++ borderRadius ++ " !important;\n    ".toList

/-- `visualGatekeeper(files, figmaNodeData)` as a function of the component
file name, the style content and the Figma data; returns the style content
with the override block appended. -/
def visualGatekeeper (tsFileName : Option Str) (scss : Str) (figma : Option FigmaNode) : Str :=
  let fillOpt := match figma with
    | some n => findFillNode n
    | none => none
  let colorPair : Option (Str × Str) := match fillOpt with
    | some f =>
      match f.color with
      | some c => some (rgbToHex c.r c.g c.b, getContrastColor c.r c.g c.b)
      | none => none
    | none => none
  let borderRadius0 : Option Str := match figma with
    | some (FigmaNode.mk _ _ (some cr) _ _ _ _ _ _ _) => some (intStr cr ++ "px".toList)
    | _ => none
  let padding0 : Option Str := match figma with
    | some (FigmaNode.mk _ _ _ pt0 pb0 pl0 pr0 _ _ _) =>
      let pt := jsOrInt pt0 0
      let pb := jsOrInt pb0 0
      let pl := jsOrInt pl0 0
      let pr := jsOrInt pr0 0
      if pt > 0 ∨ pb > 0 ∨ pl > 0 ∨ pr > 0 then
        some (intStr pt ++ "px ".toList ++ intStr pr ++ "px ".toList
          ++ intStr pb ++ "px ".toList ++ intStr pl ++ "px".toList)
      else none
    | none => none
  let textOpt : Option FigmaNode := match figma with
    | some (n@(FigmaNode.mk _ _ _ _ _ _ _ _ _ (some _)))  => findTextNode n
    | _ => none
  let fontSize0 : Option Str := match textOpt with
    | some (FigmaNode.mk _ _ _ _ _ _ _ (some fs) _ _) =>
      if fs ≠ 0 then some (intStr fs ++ "px".toList) else none
    | _ => none
  let fontWeight0 : Option Int := match textOpt with
    | some (FigmaNode.mk _ _ _ _ _ _ _ _ (some fw) _) => if fw ≠ 0 then some fw else none
    | _ => none
  let nameCheck := jsOrStr tsFileName []
  let hexContrast : Str × Str := match colorPair with
    | some p => p
    | none =>
      if containsSub ("danger".toList) nameCheck || containsSub ("delete".toList) nameCheck
          || containsSub ("error".toList) nameCheck then ("#DC2626".toList, "#FFFFFF".toList)
      else if containsSub ("success".toList) nameCheck
          || containsSub ("confirm".toList) nameCheck then ("#16A34A".toList, "#FFFFFF".toList)
      else if containsSub ("warn".toList) nameCheck then ("#CA8A04".toList, "#000000".toList)
      else if containsSub ("info".toList) nameCheck then ("#2563EB".toList, "#FFFFFF".toList)
      else ("#333333".toList, "#FFFFFF".toList)
  let padding := jsOrStr padding0 ("12px 24px".toList)
  let borderRadius := jsOrStr borderRadius0 ("8px".toList)
  let fontSize := jsOrStr fontSize0 ("16px".toList)
  let lowerName := lowerStr (jsOrStr tsFileName [])
  let sc : Str × Str :=
    if containsSub ("button".toList) lowerName || containsSub ("btn".toList) lowerName
        || containsSub ("badge".toList) lowerName || containsSub ("chip".toList) lowerName then
      (":host, button, .btn, .p-button, .badge, .chip".toList,
        buttonRules hexContrast.1 hexContrast.2 borderRadius padding fontSize fontWeight0)
    else if containsSub ("card".toList) lowerName || containsSub ("panel".toList) lowerName
        || containsSub ("container".toList) lowerName || containsSub ("modal".toList) lowerName
        || containsSub ("dialog".toList) lowerName then
      (":host, .card, .panel, .container, .modal, .dialog".toList,
        cardRules hexContrast.1 borderRadius padding)
    else if containsSub ("icon".toList) lowerName || containsSub ("svg".toList) lowerName then
      (":host, i, svg, .icon".toList, iconRules hexContrast.1)
    else if containsSub ("input".toList) lowerName || containsSub ("field".toList) lowerName
        || containsSub ("text".toList) lowerName then
      (":host, input, .input-field, textarea".toList,
        inputRules hexContrast.1 borderRadius padding fontSize)
    else (":host".toList, defaultRules hexContrast.1 borderRadius)
  let overrideCss :=
    "\n// 🔒 VISUAL GATEKEEPER OVERRIDE (Strategy: ".toList ++ lowerName ++ ")\n".toList
    ++ sc.1 ++ " \x7b\n  ".toList ++ sc.2 ++ "\n  box-sizing: border-box !important;\n\x7d\n".toList
  scss ++ overrideCss

/-! `validateAndHealStory` (lines 661-745) and `toPascalCase` (lines 898-900). -/

def isWordChar (c : Char) : Bool :=
  (97 ≤ c.toNat && c.toNat ≤ 122) || (65 ≤ c.toNat && c.toNat ≤ 90)
    || (48 ≤ c.toNat && c.toNat ≤ 57) || c = '_'

/-- `/(?:^\w|[A-Z]|\b\w)/g` uppercasing worker: a character is uppercased when
it is a word character at the start, an uppercase letter, or a word character
after a non-word character. -/
def pascalGo : Option Char → Str → Str
  | _, [] => []
  | prev, c :: cs =>
    let up := match prev with
      | none => isWordChar c
      | some p => (65 ≤ c.toNat && c.toNat ≤ 90) || (!isWordChar p && isWordChar c)
    (if up then c.toUpper else c) :: pascalGo (some c) cs

def toPascalCase (s : Str) : Str := (pascalGo none s).filter (fun c => !isWsChar c)

def splitPipe : Str → List Str
  | [] => [[]]
  | c :: cs =>
    if c = '|' then [] :: splitPipe cs
    else
      match splitPipe cs with
      | h :: t => (c :: h) :: t
      | [] => [[c]]

def joinSep (sep : Str) : List Str → Str
  | [] => []
  | [x] => x
  | x :: y :: t => x ++ sep ++ joinSep sep (y :: t)

/-- Map insertion order of the name-keyed dedup: keep the first input of each
name. -/
def dedupInputs : List InferredInput → List Str → List InferredInput
  | [], _ => []
  | i :: t, seen =>
    if seen.contains i.name then dedupInputs t seen
    else i :: dedupInputs t (i.name :: seen)

def argTypeLine (i : InferredInput) : Str :=
  let co : Str × Str :=
    if i.ty = ("boolean".toList) then ("boolean".toList, [])
    else if containsSub (['|']) i.ty then
      ("select".toList,
        ", options: [".toList
          ++ joinSep (", ".toList)
            ((splitPipe i.ty).map (fun s =>
              '\'' :: (trimStr s).filter (fun c => ¬(c = '\'' ∨ c = '"')) ++ ['\'']))
          ++ [']'])
    else ("text".toList, [])
  "    ".toList ++ i.name ++ ": \x7b control: '".toList ++ co.1 ++ ['\''] ++ co.2
    ++ " \x7d,\n".toList

def defaultArgLine (i : InferredInput) : Str :=
  let d0 := jsOrStr i.defaultValue (if i.ty = ("boolean".toList) then "false".toList
    else "''".toList)
  let d :=
    if i.ty = ("string".toList)
        && !(match d0 with | c :: _ => c = '\'' || c = '"' | [] => false) then
      '\'' :: d0 ++ ['\'']
    else d0
  "    ".toList ++ i.name ++ ": ".toList ++ d ++ ",\n".toList

def genStoryContent (tsCode componentName : Str) (inputs : List InferredInput) : Str :=
  let pascalName := toPascalCase componentName ++ "Component".toList
  let inputsToUse := dedupInputs inputs []
  let argTypes := (inputsToUse.map argTypeLine).flatten
  let defaultArgs := (inputsToUse.map defaultArgLine).flatten
  let moduleProp := if containsSub ("standalone: true".toList) tsCode then "imports".toList
    else "declarations".toList
  "import \x7b Meta, StoryObj, moduleMetadata \x7d from '@storybook/angular';\nimport \x7b ".toList
  ++ pascalName ++ " \x7d from './".toList ++ lowerStr componentName
  ++ ".component';\n\nconst meta: Meta<".toList ++ pascalName
  ++ "> = \x7b\n  title: 'Generated/".toList ++ toPascalCase componentName
  ++ "',\n  component: ".toList ++ pascalName
  ++ ",\n  decorators: [\n    moduleMetadata(\x7b\n      ".toList ++ moduleProp
  ++ ": [".toList ++ pascalName
  ++ "],\n      imports: [] \n    \x7d),\n  ],\n  argTypes: \x7b\n".toList ++ argTypes
  ++ "  \x7d,\n  render: (args) => (\x7b\n    props: args,\n  \x7d),\n\x7d;\n\nexport default meta;\ntype Story = StoryObj<".toList
  ++ pascalName
  ++ ">;\n\nexport const Default: Story = \x7b\n  args: \x7b\n".toList ++ defaultArgs
  ++ "  \x7d,\n\x7d;".toList

def genStory (tsCode componentName : Str) (inputs : List InferredInput) : Artifact :=
  let content := genStoryContent tsCode componentName inputs
  ⟨lowerStr componentName ++ ".stories.ts".toList, content, "typescript".toList, content.length⟩

def validateAndHealStory (existing : Option Artifact) (tsCode componentName : Str)
    (inputs : List InferredInput) : Artifact :=
  match existing with
  | some st =>
    if st.content ≠ [] && containsSub ("Meta".toList) st.content then st
    else genStory tsCode componentName inputs
  | none => genStory tsCode componentName inputs

/-! `validateExtractedFiles` with `validateTypeScriptComponent` and
`validateHtmlTemplate` (lines 798-827), and the `parseGeminiResponse` pipeline
itself (lines 138-225): the story extraction failure is swallowed by the inner
try/catch, so the only aborts of the outer try block are the three
`extractCodeBlock` throws, whose messages the catch turns into a single
appended `Gatekeeper error:` entry while keeping the artifacts extracted so
far. -/

/-- Test of `/export\s+class\s+(\w+)/`. -/
def exportClassTest (s : Str) : Bool :=
  anySuffix (fun u =>
    if ("export".toList).isPrefixOf u then
      let r1 := u.drop 6
      let w1 := r1.takeWhile isWsChar
      if w1 = [] then false
      else if ("class".toList).isPrefixOf (r1.drop w1.length) then
        let r2 := (r1.drop w1.length).drop 5
        let w2 := r2.takeWhile isWsChar
        if w2 = [] then false
        else
          match r2.drop w2.length with
          | c :: _ => isWordChar c
          | [] => false
      else false
    else false) s

def validateTypeScriptComponent (content : Str) : List Str :=
  (if !(containsSub ("@Component".toList) content) then
    ["TypeScript file missing @Component decorator".toList] else [])
  ++ (if !(exportClassTest content) then ["TypeScript file missing export class".toList] else [])
  ++ (if !(containsSub ("import".toList) content)
        || !(containsSub ("@angular/core".toList) content) then
      ["TypeScript file missing Angular imports".toList] else [])

def validateHtmlTemplate (content : Str) : List Str :=
  if content.length < 10 then ["HTML template appears to be too short".toList] else []

/-- The parsed-files bundle. -/
structure Files where
  typescript : Option Artifact
  html : Option Artifact
  scss : Option Artifact
  story : Option Artifact
  errors : List Str
deriving DecidableEq

def missEmpty (o : Option Artifact) (nm : Str) : List Str :=
  match o with
  | none => ["Missing ".toList ++ nm ++ " file".toList]
  | some a => if a.content = [] then ["Empty ".toList ++ nm ++ " file content".toList] else []

def validateExtractedFiles (f : Files) : Files :=
  { f with errors := f.errors
      ++ missEmpty f.typescript ("typescript".toList) ++ missEmpty f.html ("html".toList)
      ++ missEmpty f.scss ("scss".toList) ++ missEmpty f.story ("story".toList)
      ++ (match f.typescript with
          | some a => if a.content ≠ [] then validateTypeScriptComponent a.content else []
          | none => [])
      ++ (match f.html with
          | some a => if a.content ≠ [] then validateHtmlTemplate a.content else []
          | none => []) }

def gkErr (msg : Str) : Str := "Gatekeeper error: ".toList ++ msg

def parseGeminiResponse (response componentName : Str) (inferredInputs : Option InputsObj)
    (figma : Option FigmaNode) : Files :=
  match extractCodeBlock response ("typescript".toList) componentName with
  | Except.error msg => ⟨none, none, none, none, [gkErr msg]⟩
  | Except.ok tsArt =>
    match extractCodeBlock response ("html".toList) componentName with
    | Except.error msg => ⟨some tsArt, none, none, none, [gkErr msg]⟩
    | Except.ok htmlArt =>
      match extractCodeBlock response ("scss".toList) componentName with
      | Except.error msg => ⟨some tsArt, some htmlArt, none, none, [gkErr msg]⟩
      | Except.ok scssArt =>
        let inputsList := match inferredInputs with
          | some o => o.inputs
          | none => []
        let ts1 := if tsArt.content ≠ [] then templateUrlHeal componentName tsArt.content
          else tsArt.content
        let story0 := (extractCodeBlock response ("typescript".toList)
          (componentName ++ ".stories".toList)).toOption
        let ts2 := sanitizeTs ts1
        let html1 := sanitizeHtml htmlArt.content
        let scss1 := visualGatekeeper (some tsArt.fileName) scssArt.content figma
        let scss2 := normalizeSelectors html1 scss1
        let html2 := if html1 ≠ [] then healEmptyTags html1 inputsList else html1
        let ts3 := if ts2 ≠ [] then validateAndHealComponent ts2 inputsList else ts2
        let story1 := validateAndHealStory story0 ts3 componentName inputsList
        validateExtractedFiles
          ⟨some { tsArt with content := ts3 }, some { htmlArt with content := html2 },
            some { scssArt with content := scss2 }, some story1, []⟩

theorem genStoryContent_ne_nil (t c : Str) (i : List InferredInput) :
    genStoryContent t c i ≠ [] := by
  intro h
  unfold genStoryContent at h
  simp only [] at h
  have hlen := congrArg List.length h
  simp only [List.length_append, List.length_nil] at hlen
  have h0 : 0 < (("import \x7b Meta, StoryObj, moduleMetadata \x7d from '@storybook/angular';\nimport \x7b ".toList).length) := by
    decide
  omega

theorem validateAndHealStory_ne_nil (e : Option Artifact) (t c : Str)
    (i : List InferredInput) : (validateAndHealStory e t c i).content ≠ [] := by
  unfold validateAndHealStory
  cases e with
  | none =>
    show (genStory t c i).content ≠ []
    exact genStoryContent_ne_nil t c i
  | some st =>
    show (if (st.content ≠ [] && containsSub ("Meta".toList) st.content) = true then st
      else genStory t c i).content ≠ []
    by_cases hc : (st.content ≠ [] && containsSub ("Meta".toList) st.content) = true
    · rw [if_pos hc]
      rcases Bool.and_eq_true_iff.mp hc with ⟨h1, _⟩
      simpa using h1
    · rw [if_neg hc]
      show (genStory t c i).content ≠ []
      exact genStoryContent_ne_nil t c i

theorem validateExtractedFiles_errors_ne {f : Files}
    (hdisj : f.typescript = none ∨ f.html = none ∨ f.scss = none ∨ f.story = none
      ∨ (∃ a, f.typescript = some a ∧ a.content = [])
      ∨ (∃ a, f.html = some a ∧ a.content = [])
      ∨ (∃ a, f.scss = some a ∧ a.content = [])
      ∨ (∃ a, f.story = some a ∧ a.content = [])) :
    (validateExtractedFiles f).errors ≠ [] := by
  intro hnil
  have hnil' : f.errors
      ++ missEmpty f.typescript ("typescript".toList) ++ missEmpty f.html ("html".toList)
      ++ missEmpty f.scss ("scss".toList) ++ missEmpty f.story ("story".toList)
      ++ (match f.typescript with
          | some a => if a.content ≠ [] then validateTypeScriptComponent a.content else []
          | none => [])
      ++ (match f.html with
          | some a => if a.content ≠ [] then validateHtmlTemplate a.content else []
          | none => []) = [] := hnil
  have hlen := congrArg List.length hnil'
  simp only [List.length_append, List.length_nil] at hlen
  rcases hdisj with h | h | h | h | ⟨a, h, hc⟩ | ⟨a, h, hc⟩ | ⟨a, h, hc⟩ | ⟨a, h, hc⟩
  · rw [h] at hlen; simp [missEmpty] at hlen
  · rw [h] at hlen; simp [missEmpty] at hlen
  · rw [h] at hlen; simp [missEmpty] at hlen
  · rw [h] at hlen; simp [missEmpty] at hlen
  · rw [h] at hlen; simp [missEmpty, hc] at hlen
  · rw [h] at hlen; simp [missEmpty, hc] at hlen
  · rw [h] at hlen; simp [missEmpty, hc] at hlen
  · rw [h] at hlen; simp [missEmpty, hc] at hlen

/-- C3: a raw response in which the structural, markup, or style block cannot
be located (primary and fallback patterns all fail) makes the extraction throw;
the catch then returns a bundle holding exactly the artifacts extracted before
the failure plus one appended `Gatekeeper error:` entry, and the remaining
stages never run.  When all three blocks are found, the pipeline completes and
the documentation artifact is always present with non-empty content — a
missing story block alone never aborts, it is regenerated.  And whenever any
of the four artifacts is missing or has empty content in the returned bundle,
the returned error list is non-empty. -/
theorem claim_C3 (response componentName : Str) (inf : Option InputsObj)
    (figma : Option FigmaNode) :
    (∀ msg, extractCodeBlock response ("typescript".toList) componentName = Except.error msg →
        parseGeminiResponse response componentName inf figma
          = ⟨none, none, none, none, [gkErr msg]⟩)
    ∧ (∀ tsArt msg,
        extractCodeBlock response ("typescript".toList) componentName = Except.ok tsArt →
        extractCodeBlock response ("html".toList) componentName = Except.error msg →
        parseGeminiResponse response componentName inf figma
          = ⟨some tsArt, none, none, none, [gkErr msg]⟩)
    ∧ (∀ tsArt htmlArt msg,
        extractCodeBlock response ("typescript".toList) componentName = Except.ok tsArt →
        extractCodeBlock response ("html".toList) componentName = Except.ok htmlArt →
        extractCodeBlock response ("scss".toList) componentName = Except.error msg →
        parseGeminiResponse response componentName inf figma
          = ⟨some tsArt, some htmlArt, none, none, [gkErr msg]⟩)
    ∧ (∀ tsArt htmlArt scssArt,
        extractCodeBlock response ("typescript".toList) componentName = Except.ok tsArt →
        extractCodeBlock response ("html".toList) componentName = Except.ok htmlArt →
        extractCodeBlock response ("scss".toList) componentName = Except.ok scssArt →
        (parseGeminiResponse response componentName inf figma).typescript.isSome = true
        ∧ (parseGeminiResponse response componentName inf figma).html.isSome = true
        ∧ (parseGeminiResponse response componentName inf figma).scss.isSome = true
        ∧ ∃ st, (parseGeminiResponse response componentName inf figma).story = some st
            ∧ st.content ≠ [])
    ∧ (((parseGeminiResponse response componentName inf figma).typescript = none
        ∨ (parseGeminiResponse response componentName inf figma).html = none
        ∨ (parseGeminiResponse response componentName inf figma).scss = none
        ∨ (parseGeminiResponse response componentName inf figma).story = none
        ∨ (∃ a, (parseGeminiResponse response componentName inf figma).typescript = some a
            ∧ a.content = [])
        ∨ (∃ a, (parseGeminiResponse response componentName inf figma).html = some a
            ∧ a.content = [])
        ∨ (∃ a, (parseGeminiResponse response componentName inf figma).scss = some a
            ∧ a.content = [])
        ∨ (∃ a, (parseGeminiResponse response componentName inf figma).story = some a
            ∧ a.content = []))
        → (parseGeminiResponse response componentName inf figma).errors ≠ []) := by
  refine ⟨?_, ?_, ?_, ?_, ?_⟩
  · intro msg h
    unfold parseGeminiResponse
    rw [h]
  · intro tsArt msg h1 h2
    unfold parseGeminiResponse
    rw [h1, h2]
  · intro tsArt htmlArt msg h1 h2 h3
    unfold parseGeminiResponse
    rw [h1, h2, h3]
  · intro tsArt htmlArt scssArt h1 h2 h3
    unfold parseGeminiResponse
    rw [h1, h2, h3]
    refine ⟨rfl, rfl, rfl, _, rfl, ?_⟩
    exact validateAndHealStory_ne_nil _ _ _ _
  · intro hdisj
    revert hdisj
    unfold parseGeminiResponse
    cases h1 : extractCodeBlock response ("typescript".toList) componentName with
    | error msg => intro _; simp
    | ok tsArt =>
      cases h2 : extractCodeBlock response ("html".toList) componentName with
      | error msg => intro _; simp
      | ok htmlArt =>
        cases h3 : extractCodeBlock response ("scss".toList) componentName with
        | error msg => intro _; simp
        | ok scssArt =>
          intro hdisj
          exact validateExtractedFiles_errors_ne hdisj

theorem claim_C3_witness :
    parseGeminiResponse ("hello".toList) ("card".toList) none none
      = ⟨none, none, none, none, [gkErr ("No typescript code block found".toList)]⟩
    ∧ (parseGeminiResponse ("hello".toList) ("card".toList) none none).errors ≠ []
    ∧ ∃ st, (parseGeminiResponse
        ("```typescript\nexport class A \x7b\x7d\n```\n```html\n<div>hi</div>\n```\n```scss\n.a \x7b color: red; \x7d\n```".toList)
        ("card".toList) none none).story = some st ∧ st.content ≠ [] := by
  refine ⟨?_, ?_, ?_⟩
  · exact (claim_C3 _ _ none none).1 _ (by rfl)
  · exact (claim_C3 _ _ none none).2.2.2.2 (Or.inl (by rfl))
  · exact ((claim_C3 _ _ none none).2.2.2.1
      ⟨"card.component.ts".toList, "export class A \x7b\x7d".toList, "typescript".toList, 17⟩
      ⟨"card.component.html".toList, "<div>hi</div>".toList, "html".toList, 13⟩
      ⟨"card.component.scss".toList, ".a \x7b color: red; \x7d".toList, "scss".toList, 18⟩
      (by rfl) (by rfl) (by rfl)).2.2.2

end Spec2Proof
